import Mathlib

/-!
Verification development for the MamaTY crafting-graph engine
(`mamaty/databank.py`, `mamaty/graph.py`, `mamaty/subgraph.py`).

The Python source is embedded shallowly:

* entities (`Object`, `Transition`) become structures; display-only fields
  (`name`, `last_use_actor`, `last_use_target`, use-fraction and move fields,
  which feed only the graphviz label strings) are omitted;
* the mutable `complexity` attribute of the node objects is threaded as an
  explicit `List Int` parallel to the node list;
* Python `set` worklists are modelled as sorted duplicate-free `List Nat`;
  `set.pop` returns an arbitrary element in Python, and for small integer
  keys CPython pops them in increasing order, so popping the least element
  (the list head) is the deterministic refinement used throughout;
* `while` loops become fuel-indexed structural recursions; the fuel is
  generous and every concrete evaluation below ends with an empty worklist;
* the `IndexError` raised by `parents[0]` on an empty list in
  `SubGraph._get_parents`, and the `KeyError` of a failed dictionary lookup,
  are modelled with `Except`/`Option`.
-/

namespace Mamaty

/-- Sentinel for a not-yet-reached node (`GraphNode.DEFAULT_COMPLEXITY`). -/
def DEFAULT_COMPLEXITY : Int := 9999999999

/-! ## databank.py -/

/-- The in-game object entity (`databank.Object`); `category_contains`
keeps the identifiers of the contained objects. -/
structure Object where
  identifier : Int
  is_natural : Bool
  is_category : Bool
  category_contains : List Int
deriving DecidableEq, Repr

/-- Classification of transitions (`databank.TransitionType`). -/
inductive TransitionType where
  | NATURAL
  | BARE_HANDS
  | INTERACT
  | DROP
  | CRAFT
deriving DecidableEq, Repr

/-- A recipe (`databank.Transition`); only the fields the graph engine
reads are kept. -/
structure Transition where
  actor : Int
  target : Int
  new_actor : Int
  new_target : Int
  auto_decay_seconds : Int := 0
deriving DecidableEq, Repr

/-- Transition kind, as computed in `Transition.__init__`. -/
def Transition.type (t : Transition) : TransitionType :=
  if t.actor = -1 then .NATURAL
  else if t.actor = 0 then .BARE_HANDS
  else if t.actor = -2 then .INTERACT
  else if t.target = -1 then .DROP
  else .CRAFT

/-- Identifiers of the input objects (`Transition.get_input_objects`):
positive actor then positive target. -/
def Transition.get_input_objects (t : Transition) : List Int :=
  (if t.actor > 0 then [t.actor] else []) ++ (if t.target > 0 then [t.target] else [])

/-- Identifiers of the output objects (`Transition.get_output_objects`). -/
def Transition.get_output_objects (t : Transition) : List Int :=
  (if t.new_actor > 0 then [t.new_actor] else []) ++
    (if t.new_target > 0 then [t.new_target] else [])

/-! ## graph.py: nodes and edges -/

/-- Closed tagged variant for the node hierarchy
(`NodeObject` / `NodeTransition`). -/
inductive GNode where
  | obj (o : Object)
  | trans (t : Transition)
deriving DecidableEq, Repr

instance : Inhabited GNode := ⟨.obj ⟨0, false, false, []⟩⟩

/-- Initial complexity of a node: 0 for natural objects,
`DEFAULT_COMPLEXITY` for other objects, -1 for transition nodes. -/
def GNode.initComplexity : GNode → Int
  | .obj o => if o.is_natural then 0 else DEFAULT_COMPLEXITY
  | .trans _ => -1

/-- Edge classification (`graph.EdgeType`). -/
inductive EdgeType where
  | NATURAL
  | BARE_HANDS
  | INTERACT
  | DROP
  | CONSUME
  | TOOL
  | TRANSITION
  | CATEGORY
  | OTHER
deriving DecidableEq, Repr

/-- Graph edge (`graph.Edge`): endpoints are node indices; the `looping`
flag is written by the cycle analysis. -/
structure Edge where
  from_node : Nat
  to_node : Nat
  category : EdgeType
  transition : Option Transition
  looping : Bool := false
deriving DecidableEq, Repr

instance : Inhabited Edge := ⟨⟨0, 0, .OTHER, none, false⟩⟩

/-- Edge cost (`Edge.cost`): 0 for NATURAL and TRANSITION, 1 otherwise. -/
def Edge.cost (e : Edge) : Int :=
  if e.category = .NATURAL ∨ e.category = .TRANSITION then 0 else 1

/-- Edge category of a transition input edge
(`graph._transition_type_to_edge_type`). -/
def transition_type_to_edge_type : TransitionType → EdgeType
  | .NATURAL => .NATURAL
  | .BARE_HANDS => .BARE_HANDS
  | .INTERACT => .INTERACT
  | .DROP => .DROP
  | .CRAFT => .CONSUME

/-- Per-node complexity update (`NodeObject.update_complexity` and
`NodeTransition.update_complexity`): returns the new complexity and
whether the node should propagate. -/
def GNode.update_complexity (n : GNode) (current incoming : Int) : Int × Bool :=
  match n with
  | .obj _ => if current > incoming then (incoming, true) else (current, false)
  | .trans t =>
      if current = -1 then
        (incoming, t.get_input_objects.length = 1)
      else
        (max current incoming, true)

/-! ## graph.py: graph construction (`Graph._create`) -/

/-- The static part of the graph: node list, edge list,
object-id-to-node-index mapping. -/
structure Graph where
  nodes : List GNode
  edges : List Edge
  obj_to_node : List (Int × Nat)
deriving DecidableEq, Repr

/-- Dictionary lookup in `obj_to_node` (`KeyError` becomes `none`). -/
def lookupNode (m : List (Int × Nat)) (k : Int) : Option Nat :=
  (m.find? (fun p => p.1 = k)).map (·.2)

/-- First construction loop: one node per object with positive identifier,
recording `obj_to_node`, in iteration order. -/
def createObjNodes (objects : List Object) : List GNode × List (Int × Nat) :=
  objects.foldl
    (fun acc obj =>
      if obj.identifier > 0 then
        (acc.1 ++ [GNode.obj obj], acc.2 ++ [(obj.identifier, acc.1.length)])
      else acc)
    ([], [])

/-- Second construction loop: a CATEGORY edge from each contained object to
the category object. -/
def createCategoryEdges (m : List (Int × Nat)) (objects : List Object) :
    Option (List Edge) :=
  objects.foldlM
    (fun es obj =>
      obj.category_contains.foldlM
        (fun es c => do
          let f ← lookupNode m c
          let t ← lookupNode m obj.identifier
          pure (es ++ [Edge.mk f t .CATEGORY none false]))
        es)
    []

/-- Third construction loop: one transition node per transition, TRANSITION
edges to net-new outputs, then typed input edges (CONSUME downgraded to
TOOL for reused inputs). -/
def createTransitionPart (m : List (Int × Nat)) (startIdx : Nat)
    (ts : List Transition) : Option (List GNode × List Edge) :=
  ts.foldlM
    (fun acc t => do
      let node := startIdx + acc.1.length
      let outputs := t.get_output_objects
      let inputs := t.get_input_objects
      let outEdges ← outputs.foldlM
        (fun es o =>
          if o ∈ inputs then pure es
          else do
            let tgt ← lookupNode m o
            pure (es ++ [Edge.mk node tgt .TRANSITION none false]))
        ([] : List Edge)
      let inEdges ← inputs.foldlM
        (fun es i => do
          let et := transition_type_to_edge_type t.type
          let et := if et = .CONSUME ∧ i ∈ outputs then EdgeType.TOOL else et
          let src ← lookupNode m i
          pure (es ++ [Edge.mk src node et (some t) false]))
        ([] : List Edge)
      pure (acc.1 ++ [GNode.trans t], acc.2 ++ outEdges ++ inEdges))
    (([], []) : List GNode × List Edge)

/-- Graph construction (`Graph._create`); a missing referenced object id
makes the construction fail, as the Python `KeyError` would. -/
def Graph.create (objects : List Object) (transitions : List Transition) :
    Option Graph := do
  let (objNodes, m) := createObjNodes objects
  let catEdges ← createCategoryEdges m objects
  let (tNodes, tEdges) ← createTransitionPart m objNodes.length transitions
  pure { nodes := objNodes ++ tNodes, edges := catEdges ++ tEdges, obj_to_node := m }

/-- Outgoing edge indices per node. The Python code builds these lists by
appending while enumerating the edge list, so each list holds exactly the
indices of the edges leaving the node, in increasing index order. -/
def Graph.out_edges (g : Graph) : List (List Nat) :=
  (List.range g.nodes.length).map
    (fun i => (List.range g.edges.length).filter
      (fun j => (g.edges.getD j default).from_node = i))

/-- Incoming edge indices per node, in increasing index order. -/
def Graph.incoming_edges (g : Graph) : List (List Nat) :=
  (List.range g.nodes.length).map
    (fun i => (List.range g.edges.length).filter
      (fun j => (g.edges.getD j default).to_node = i))

/-! ## graph.py: complexity propagation (`Graph.__propagate_complexity`) -/

/-- Insertion into a sorted duplicate-free worklist (the model of adding
to a Python `set`). -/
def addVisit (n : Nat) : List Nat → List Nat
  | [] => [n]
  | m :: ms =>
      if n < m then n :: m :: ms
      else if n = m then m :: ms
      else m :: addVisit n ms

/-- Propagation state: the complexity of each node and the worklist. -/
structure PState where
  comp : List Int
  toVisit : List Nat
deriving DecidableEq, Repr

/-- Complexity of node `i` in a complexity list. -/
def compAt (comp : List Int) (i : Nat) : Int := comp.getD i 0

/-- Relaxation of one outgoing edge of a popped node whose complexity was
`dist` (the body of the `for` loop in `__propagate_complexity`). -/
def relaxEdge (nodes : List GNode) (e : Edge) (dist : Int) (s : PState) : PState :=
  let incoming := dist + e.cost
  let node := nodes.getD e.to_node default
  let current := compAt s.comp e.to_node
  let r := node.update_complexity current incoming
  { comp := s.comp.set e.to_node r.1,
    toVisit := if r.2 then addVisit e.to_node s.toVisit else s.toVisit }

/-- One iteration of the propagation `while` loop: pop the least node of
the worklist and relax its outgoing edges in order. -/
def propStep (g : Graph) (s : PState) : PState :=
  match s.toVisit with
  | [] => s
  | current :: rest =>
      let dist := compAt s.comp current
      (g.out_edges.getD current []).foldl
        (fun s' en => relaxEdge g.nodes (g.edges.getD en default) dist s')
        { s with toVisit := rest }

/-- Fuel-indexed propagation loop. -/
def propagateAux (g : Graph) : Nat → PState → PState
  | 0, s => s
  | fuel + 1, s =>
      match s.toVisit with
      | [] => s
      | _ :: _ => propagateAux g fuel (propStep g s)

/-- Initial worklist: every node whose complexity is 0, in index order. -/
def seedsOf (comp : List Int) : List Nat :=
  (List.range comp.length).filter (fun i => compAt comp i = 0)

/-- Initial complexities of the node list. -/
def initCompOf (nodes : List GNode) : List Int := nodes.map GNode.initComplexity

/-- Initial propagation state of a graph. -/
def initPState (g : Graph) : PState :=
  { comp := initCompOf g.nodes, toVisit := seedsOf (initCompOf g.nodes) }

/-- Fuel that is ample for every concrete graph used below (each concrete
run is checked to end with an empty worklist). -/
def propFuel (g : Graph) : Nat :=
  (g.nodes.length + g.edges.length + 2) * (g.nodes.length + 2)

/-- Full propagation pass over a freshly built graph. -/
def settle (g : Graph) : PState := propagateAux g (propFuel g) (initPState g)

/-- Rerunning the propagation pass on existing complexities, as calling
`__propagate_complexity` a second time would: the worklist is reseeded
from the current complexities. -/
def rerunPropagation (g : Graph) (comp : List Int) : PState :=
  propagateAux g (propFuel g) { comp := comp, toVisit := seedsOf comp }

/-! ## graph.py: strongly connected components (`Graph.__tarjan`) -/

/-- Mutable state of the Tarjan traversal. The Python stack appends and
pops at the end of a list; here the list head is the top of the stack. -/
structure TState where
  index : Nat
  indexes : List Int
  low_link : List Int
  on_stack : List Bool
  stack : List Nat
  scc : List Int
  scc_index : Nat
deriving DecidableEq, Repr

/-- Pop the stack down to and including `node`, clearing `on_stack` and
assigning the component id `k` to each popped node (the inner `while` of
`__strongconnect`). -/
def popScc (node : Nat) (k : Nat) :
    List Nat → List Bool → List Int → List Nat × List Bool × List Int
  | [], os, sc => ([], os, sc)
  | x :: rest, os, sc =>
      let os := os.set x false
      let sc := sc.set x (k : Int)
      if x = node then (rest, os, sc) else popScc node k rest os sc

/-- The recursive `__strongconnect`; the fuel bounds the recursion depth,
which never exceeds the number of nodes because recursion only enters
nodes whose index is still -1. -/
def scon (g : Graph) : Nat → Nat → TState → TState
  | 0, _, s => s
  | fuel + 1, node, s0 =>
      let s1 : TState :=
        { s0 with
          indexes := s0.indexes.set node (s0.index : Int)
          low_link := s0.low_link.set node (s0.index : Int)
          index := s0.index + 1
          stack := node :: s0.stack
          on_stack := s0.on_stack.set node true }
      let s2 := (g.out_edges.getD node []).foldl
        (fun s en =>
          let other := (g.edges.getD en default).to_node
          if s.indexes.getD other (-1) = -1 then
            let s' := scon g fuel other s
            { s' with
              low_link := s'.low_link.set node
                (min (s'.low_link.getD node (-1)) (s'.low_link.getD other (-1))) }
          else if s.on_stack.getD other false then
            { s with
              low_link := s.low_link.set node
                (min (s.low_link.getD node (-1)) (s.indexes.getD other (-1))) }
          else s)
        s1
      if s2.low_link.getD node (-1) = s2.indexes.getD node (-1) then
        let r := popScc node s2.scc_index s2.stack s2.on_stack s2.scc
        { s2 with stack := r.1, on_stack := r.2.1, scc := r.2.2,
                  scc_index := s2.scc_index + 1 }
      else s2

/-- Tarjan main loop: the strongly-connected-component id of each node. -/
def Graph.tarjan (g : Graph) : List Int :=
  let n := g.nodes.length
  let s := (List.range n).foldl
    (fun s node =>
      if s.indexes.getD node (-1) = -1 then scon g (n + 1) node s else s)
    { index := 0
      indexes := List.replicate n (-1)
      low_link := List.replicate n (-1)
      on_stack := List.replicate n false
      stack := []
      scc := List.replicate n (-1)
      scc_index := 0 }
  s.scc

/-! ## graph.py: loop-edge pruning (`Graph.__remove_loops`) -/

/-- Edge categories counting as real actions in the pruning pass. -/
def realActionCategories : List EdgeType :=
  [.BARE_HANDS, .INTERACT, .NATURAL, .DROP, .CONSUME]

/-- Candidate collection of `__remove_loops`: triples
(parent, child, child edge index) gathered over every node `i`, every
same-component real-action in-edge from `parent`, and every
same-component child of `i` whose complexity is below the parent's. -/
def loopCandidates (g : Graph) (scc : List Int) (comp : List Int) :
    List (Nat × Nat × Nat) :=
  (List.range g.nodes.length).foldl
    (fun acc i =>
      (g.incoming_edges.getD i []).foldl
        (fun acc j =>
          let e := g.edges.getD j default
          if scc.getD e.from_node (-1) = scc.getD i (-1) ∧
              e.category ∈ realActionCategories then
            let distance := compAt comp e.from_node
            (g.out_edges.getD i []).foldl
              (fun acc en =>
                let c := (g.edges.getD en default).to_node
                if scc.getD c (-1) = scc.getD i (-1) ∧ compAt comp c < distance then
                  acc ++ [(e.from_node, c, en)]
                else acc)
              acc
          else acc)
        acc)
    []

/-- State of the per-candidate in-component BFS of `__remove_loops`. -/
structure BfsState where
  dist : List Int
  toVisit : List Nat
deriving DecidableEq, Repr

/-- Fuel-indexed in-component shortest-distance loop of `__remove_loops`:
distances start at -1 (unvisited), the worklist pops its least element. -/
def loopBfsAux (g : Graph) (scc : List Int) (home : Int) :
    Nat → BfsState → BfsState
  | 0, s => s
  | fuel + 1, s =>
      match s.toVisit with
      | [] => s
      | current :: rest =>
          let cd := s.dist.getD current (-1)
          let s' := (g.out_edges.getD current []).foldl
            (fun s en =>
              let e := g.edges.getD en default
              let child := e.to_node
              if scc.getD child (-1) ≠ home then s
              else
                let nd := cd + e.cost
                let old := s.dist.getD child (-1)
                if old = -1 ∨ old > nd then
                  { dist := s.dist.set child nd, toVisit := addVisit child s.toVisit }
                else s)
            { s with toVisit := rest }
          loopBfsAux g scc home fuel s'

/-- In-component edge-cost distances from `to_node` (the BFS of
`__remove_loops` for one candidate). -/
def loopBfs (g : Graph) (scc : List Int) (to_node : Nat) : List Int :=
  let n := g.nodes.length
  let s0 : BfsState :=
    { dist := (List.replicate n (-1)).set to_node 0, toVisit := [to_node] }
  (loopBfsAux g scc (scc.getD to_node (-1)) (propFuel g) s0).dist

/-- Edge indices flagged as looping by `__remove_loops`. -/
def loopEdgesToFlag (g : Graph) (scc : List Int) (comp : List Int) : List Nat :=
  (loopCandidates g scc comp).foldl
    (fun acc cand =>
      let dists := loopBfs g scc cand.2.1
      let diff := compAt comp cand.1 - compAt comp cand.2.1
      if dists.getD cand.1 (-1) ≤ diff then acc ++ [cand.2.2] else acc)
    []

/-- The graph with the `looping` flag set on the flagged edges. -/
def applyLooping (g : Graph) (flagged : List Nat) : Graph :=
  { g with
    edges := (List.range g.edges.length).map
      (fun j =>
        let e := g.edges.getD j default
        if j ∈ flagged then { e with looping := true } else e) }

/-! ## The fully decorated graph (`Graph.__init__` pipeline) -/

/-- A constructed graph together with its settled complexities; the
`looping` flags are already applied to `graph.edges`. -/
structure DGraph where
  graph : Graph
  comp : List Int
deriving DecidableEq, Repr

instance : Inhabited DGraph := ⟨⟨⟨[], [], []⟩, []⟩⟩

/-- Full construction pipeline (`_create` then `_finish_computation`:
adjacency, complexity propagation, Tarjan, loop pruning). -/
def decorate (objects : List Object) (transitions : List Transition) :
    Option DGraph := do
  let g ← Graph.create objects transitions
  let comp := (settle g).comp
  let scc := g.tarjan
  let g' := applyLooping g (loopEdgesToFlag g scc comp)
  pure { graph := g', comp := comp }

/-! ## subgraph.py -/

/-- Parent-selection modes (`subgraph.IgnoreMode`). -/
inductive IgnoreMode where
  | NO_PARENTS
  | LEAST_COMPLEX_PARENT
  | ONLY_EXISTING_PARENTS
  | ALL_PARENTS
deriving DecidableEq, Repr

/-- Errors a SubGraph operation can raise: the `IndexError` of
`parents[0]` on an empty parent list, and the `KeyError` of an unknown
target object id. -/
inductive SubErr where
  | indexError
  | keyError
deriving DecidableEq, Repr

deriving instance DecidableEq for Except

/-- The view state (`subgraph.SubGraph`): ignore sets are sorted
duplicate-free lists. -/
structure SubGraph where
  dg : DGraph
  ignored_nodes : List Nat
  ignored_edges : List Nat
  max_distance : Int
  ignore_categories : IgnoreMode
  ignore_natural : IgnoreMode
  ignore_others : IgnoreMode
deriving DecidableEq, Repr

/-- View construction (`SubGraph.__init__`): every looping edge starts
ignored; default tunables. -/
def SubGraph.init (dg : DGraph) : SubGraph :=
  { dg := dg
    ignored_nodes := []
    ignored_edges := (List.range dg.graph.edges.length).filter
      (fun i => (dg.graph.edges.getD i default).looping = true)
    max_distance := 50
    ignore_categories := .ONLY_EXISTING_PARENTS
    ignore_natural := .NO_PARENTS
    ignore_others := .LEAST_COMPLEX_PARENT }

/-- Ignore mode of a node (`SubGraph._get_ignore_type`). -/
def SubGraph.getIgnoreType (s : SubGraph) (i : Nat) : IgnoreMode :=
  match s.dg.graph.nodes.getD i default with
  | .trans _ => .ALL_PARENTS
  | .obj o =>
      if compAt s.dg.comp i = 0 then s.ignore_natural
      else if o.is_category then s.ignore_categories
      else s.ignore_others

/-- All non-ignored parents of a node (`SubGraph._get_all_parents`), in
incoming-edge order. -/
def SubGraph.getAllParents (s : SubGraph) (node : Nat) : List Nat :=
  (s.dg.graph.incoming_edges.getD node []).foldl
    (fun acc en =>
      if en ∈ s.ignored_edges then acc
      else
        let parent := (s.dg.graph.edges.getD en default).from_node
        if parent ∈ s.ignored_nodes then acc else acc ++ [parent])
    []

/-- Parents according to the node's mode (`SubGraph._get_parents`);
`LEAST_COMPLEX_PARENT` reads `parents[0]`, which raises on an empty
parent list. -/
def SubGraph.getParents (s : SubGraph) (node : Nat) :
    Except SubErr (List Nat) :=
  match s.getIgnoreType node with
  | .NO_PARENTS => .ok []
  | .ONLY_EXISTING_PARENTS => .ok []
  | .ALL_PARENTS => .ok (s.getAllParents node)
  | .LEAST_COMPLEX_PARENT =>
      match s.getAllParents node with
      | [] => .error .indexError
      | p :: rest =>
          let chosen := rest.foldl
            (fun chosen parent =>
              if compAt s.dg.comp parent < compAt s.dg.comp chosen then parent
              else chosen)
            p
          .ok [chosen]

/-- Children of a node visible in the view (`SubGraph._get_children`): a
child counts only when the node is among the child's selected parents. -/
def SubGraph.getChildren (s : SubGraph) (node : Nat) :
    Except SubErr (List Nat) :=
  (s.dg.graph.out_edges.getD node []).foldlM
    (fun acc en =>
      if en ∈ s.ignored_edges then pure acc
      else
        let child := (s.dg.graph.edges.getD en default).to_node
        if child ∈ s.ignored_nodes then pure acc
        else do
          let ps ← s.getParents child
          if node ∈ ps then pure (acc ++ [child]) else pure acc)
    []

/-- Contraction map (`SubGraph._compute_proxy`): transition nodes with
exactly one surviving parent and one surviving child map to that child. -/
def SubGraph.computeProxy (s : SubGraph) :
    Except SubErr (List (Nat × Nat)) :=
  (List.range s.dg.graph.nodes.length).foldlM
    (fun acc i =>
      match s.dg.graph.nodes.getD i default with
      | .obj _ => pure acc
      | .trans _ => do
          let ps ← s.getParents i
          if ps.length = 1 then do
            let cs ← s.getChildren i
            match cs with
            | [c] => pure (acc ++ [(i, c)])
            | _ => pure acc
          else pure acc)
    []

/-- In-edges of every NO_PARENTS node
(`SubGraph._edges_ignored_by_no_parent_nodes`). -/
def SubGraph.edgesIgnoredByNoParentNodes (s : SubGraph) : List Nat :=
  (List.range s.dg.graph.nodes.length).foldl
    (fun acc i =>
      if s.getIgnoreType i = .NO_PARENTS then
        (s.dg.graph.incoming_edges.getD i []).foldl
          (fun acc en => addVisit en acc) acc
      else acc)
    []

/-- Traversal state of `leading_to_obj`. -/
structure LtoState where
  visited : List Nat
  distances : List Int
  toVisit : List Nat
deriving DecidableEq, Repr

/-- The `while` loop of `leading_to_obj`: breadth-first over selected
parents; a node popped beyond `max_distance` is not expanded; re-visits
keep the larger distance. When `max_distance ≤ 0` the popped distance is
taken as -1. -/
def ltoAux (s : SubGraph) : Nat → LtoState → Except SubErr LtoState
  | 0, st => .ok st
  | fuel + 1, st =>
      match st.toVisit with
      | [] => .ok st
      | current :: rest =>
          let distance : Int :=
            if s.max_distance > 0 then st.distances.getD current 0 else -1
          if distance > s.max_distance then
            ltoAux s fuel { st with toVisit := rest }
          else do
            let parents ← s.getParents current
            let st' := parents.foldl
              (fun st parent =>
                if parent ∉ st.visited then
                  { visited := addVisit parent st.visited
                    distances := st.distances.set parent (distance + 1)
                    toVisit := addVisit parent st.toVisit }
                else if st.distances.getD parent 0 < distance + 1 then
                  { st with
                    distances := st.distances.set parent (distance + 1)
                    toVisit := addVisit parent st.toVisit }
                else st)
              { st with toVisit := rest }
            ltoAux s fuel st'

/-- Fuel for the `leading_to_obj` loop, ample for the concrete views
below (each concrete run is checked to end with an empty worklist). -/
def ltoFuel (s : SubGraph) : Nat :=
  let n := s.dg.graph.nodes.length
  (n + 2) * (s.max_distance.toNat + n + 2)

/-- The `leading_to_obj` operation. The Python source computes
`self.ignored_edges.union(self._edges_ignored_by_no_parent_nodes())` on
entry, but `set.union` returns a new set and the result is discarded, so
the statement has no effect and is modelled as a no-op. Every node not
visited by the traversal is added to the ignored-node set. -/
def SubGraph.leadingToObj (s : SubGraph) (obj : Int) :
    Except SubErr SubGraph := do
  let some start := lookupNode s.dg.graph.obj_to_node obj
    | .error .keyError
  let n := s.dg.graph.nodes.length
  let st0 : LtoState :=
    { visited := [start], distances := List.replicate n 0, toVisit := [start] }
  let st ← ltoAux s (ltoFuel s) st0
  let ignored := (List.range n).foldl
    (fun acc i => if i ∈ st.visited then acc else addVisit i acc)
    s.ignored_nodes
  pure { s with ignored_nodes := ignored }

/-- Traversal result of `leading_to_obj` exposed for the theorems: the
final loop state (visited set, distances, remaining worklist). -/
def SubGraph.ltoTraversal (s : SubGraph) (obj : Int) :
    Except SubErr LtoState := do
  let some start := lookupNode s.dg.graph.obj_to_node obj
    | .error .keyError
  let n := s.dg.graph.nodes.length
  ltoAux s (ltoFuel s)
    { visited := [start], distances := List.replicate n 0, toVisit := [start] }

/-- Proxy lookup (`graph._get_node_through_proxy`). -/
def getNodeThroughProxy (node : Nat) (proxy : List (Nat × Nat)) : Nat :=
  match proxy.find? (fun p => p.1 = node) with
  | some p => p.2
  | none => node

/-- Edge visibility in the rendered output (`Graph._is_edge_valid`). -/
def isEdgeValid (g : Graph) (edge_id : Nat) (ignored_nodes ignored_edges : List Nat)
    (proxy : List (Nat × Nat)) : Bool :=
  if edge_id ∈ ignored_edges then false
  else
    let e := g.edges.getD edge_id default
    let f := getNodeThroughProxy e.from_node proxy
    let t := getNodeThroughProxy e.to_node proxy
    if f = t then false
    else ¬(f ∈ ignored_nodes ∨ t ∈ ignored_nodes)

/-- Structural rendering view (`Graph.to_graphviz` through
`SubGraph.to_graphviz`, with the exact textual syntax abstracted away):
the declared node indices and the drawn edge indices. -/
structure RenderView where
  nodes : List Nat
  edges : List Nat
deriving DecidableEq, Repr

/-- Rendering-view extraction for a view (`SubGraph.to_graphviz`). -/
def SubGraph.toRenderView (s : SubGraph) : Except SubErr RenderView := do
  let proxy ← s.computeProxy
  let g := s.dg.graph
  let nodes := (List.range g.nodes.length).filter
    (fun i => i ∉ s.ignored_nodes ∧ (proxy.find? (fun p => p.1 = i)).isNone)
  let edges := (List.range g.edges.length).filter
    (fun i => isEdgeValid g i s.ignored_nodes s.ignored_edges proxy)
  pure { nodes := nodes, edges := edges }

/-! ## Concrete scenario graphs

Each scenario lists the objects in dictionary-value order (the order
`Graph._create` iterates them) and the transitions in list order. -/

/-- Shorthand for a plain object entity. -/
def mkObj (id : Int) (natural : Bool) : Object :=
  { identifier := id, is_natural := natural, is_category := false,
    category_contains := [] }

/-- The decorated graph of a scenario (every scenario below is checked to
construct successfully). -/
def dgOf (objects : List Object) (transitions : List Transition) : DGraph :=
  (decorate objects transitions).getD default

/-- Stone scenario of the spec: 0 = Bare Hands (natural), 1 = Stone
(natural), 2 = Stone Block, one BARE_HANDS transition 0,1 to 0,2.
Node indices: 0 Stone, 1 Stone Block, 2 the transition node. -/
def stoneObjects : List Object := [mkObj 0 true, mkObj 1 true, mkObj 2 false]

/-- Transition list of the stone scenario. -/
def stoneTransitions : List Transition := [⟨0, 1, 0, 2, 0⟩]

/-- Decorated stone-scenario graph. -/
def stoneDG : DGraph := dgOf stoneObjects stoneTransitions

/-- Scenario for the transition-complexity claim: a craft transition whose
two inputs settle at complexities 2 and 3. Objects: 1 = A (natural),
2 = X, 3 = P, 4 = Y, 5 = Z, 6 = Q, 7 = R; bare-hand chains A-X-P and
A-Y-Z-Q, then a craft combining P and Q into R. Node indices: 0 A, 1 X,
2 P, 3 Y, 4 Z, 5 Q, 6 R, then 7..12 the six transition nodes. -/
def joinObjects : List Object :=
  [mkObj 1 true, mkObj 2 false, mkObj 3 false, mkObj 4 false, mkObj 5 false,
   mkObj 6 false, mkObj 7 false]

/-- Transition list of the join scenario; the last transition (node 12) is
the craft with inputs P (id 3) and Q (id 6) and output R (id 7). -/
def joinTransitions : List Transition :=
  [⟨0, 1, 0, 2, 0⟩, ⟨0, 2, 0, 3, 0⟩, ⟨0, 1, 0, 4, 0⟩, ⟨0, 4, 0, 5, 0⟩,
   ⟨0, 5, 0, 6, 0⟩, ⟨3, 6, 0, 7, 0⟩]

/-- Decorated join-scenario graph. -/
def joinDG : DGraph := dgOf joinObjects joinTransitions

/-- Half-fed-join scenario: 1 = A (natural), 2 = B (no production path),
3 = D; one craft transition with inputs A and B and output D. Node
indices: 0 A, 1 B, 2 D, 3 the transition node. -/
def halfObjects : List Object := [mkObj 1 true, mkObj 2 false, mkObj 3 false]

/-- Transition list of the half-fed-join scenario. -/
def halfTransitions : List Transition := [⟨1, 2, 0, 3, 0⟩]

/-- Constructed (undecorated) half-fed-join graph. -/
def halfGraph : Graph :=
  (Graph.create halfObjects halfTransitions).getD ⟨[], [], []⟩

/-- Pruning scenario: 1 = N (natural), 2 = X, 3 = q, 4 = p, 5 = c; chains
N-X-q and N-q, a craft with inputs q and p producing c, and a bare-hand
transition turning c into p. Node indices: 0 N, 1 X, 2 q, 3 p, 4 c,
5..9 the five transition nodes; edge 6 is the TRANSITION edge from the
craft node (8) to c (4). -/
def pruneObjects : List Object :=
  [mkObj 1 true, mkObj 2 false, mkObj 3 false, mkObj 4 false, mkObj 5 false]

/-- Transition list of the pruning scenario. -/
def pruneTransitions : List Transition :=
  [⟨0, 1, 0, 2, 0⟩, ⟨0, 2, 0, 3, 0⟩, ⟨0, 1, 0, 3, 0⟩, ⟨3, 4, 0, 5, 0⟩,
   ⟨0, 5, 0, 4, 0⟩]

/-- Two-object craft-cycle scenario: 1 = N (natural), 2 = W (natural),
3 = W2 (natural), 4 = A, 5 = B; N gives A bare-handedly, a craft
combines W and A into B, a craft combines W2 and B into A. Node
indices: 0 N, 1 W, 2 W2, 3 A, 4 B, 5 T0, 6 TAB, 7 TBA; edge 5 is the
TRANSITION edge from TBA (node 7) back to A (node 3). -/
def cycleObjects : List Object :=
  [mkObj 1 true, mkObj 2 true, mkObj 3 true, mkObj 4 false, mkObj 5 false]

/-- Transition list of the craft-cycle scenario. -/
def cycleTransitions : List Transition :=
  [⟨0, 1, 0, 4, 0⟩, ⟨2, 4, 0, 5, 0⟩, ⟨3, 5, 0, 4, 0⟩]

/-- Decorated craft-cycle graph. -/
def cycleDG : DGraph := dgOf cycleObjects cycleTransitions

/-- Chain scenario for the ancestor closure: 1 = N (natural), 2 = A,
3 = B, 4 = C, three bare-hand steps N to A to B to C. Node indices:
0 N, 1 A, 2 B, 3 C, 4 TN, 5 TAB, 6 TBC. -/
def chainObjects : List Object :=
  [mkObj 1 true, mkObj 2 false, mkObj 3 false, mkObj 4 false]

/-- Transition list of the chain scenario. -/
def chainTransitions : List Transition :=
  [⟨0, 1, 0, 2, 0⟩, ⟨0, 2, 0, 3, 0⟩, ⟨0, 3, 0, 4, 0⟩]

/-- Decorated chain graph. -/
def chainDG : DGraph := dgOf chainObjects chainTransitions

/-- View on the chain graph with a chosen `max_distance`. -/
def chainView (md : Int) : SubGraph :=
  { SubGraph.init chainDG with max_distance := md }

/-- Two-natural cycle scenario: 1 = N (natural), 2 = M (natural), a
bare-hand transition N to M and one M to N, so every node has an
incoming edge. Node indices: 0 N, 1 M, 2 T1, 3 T2; edges: 0 the
TRANSITION edge T1 to M, 1 the BARE_HANDS edge N to T1, 2 the
TRANSITION edge T2 to N, 3 the BARE_HANDS edge M to T2. -/
def natCycleObjects : List Object := [mkObj 1 true, mkObj 2 true]

/-- Transition list of the two-natural cycle. -/
def natCycleTransitions : List Transition := [⟨0, 1, 0, 2, 0⟩, ⟨0, 2, 0, 1, 0⟩]

/-- Decorated two-natural-cycle graph. -/
def natCycleDG : DGraph := dgOf natCycleObjects natCycleTransitions

/-- Orphan scenario: 1 = N (natural) and 2 = Z with no transitions, so Z
has no parents at all. Node indices: 0 N, 1 Z. -/
def orphanObjects : List Object := [mkObj 1 true, mkObj 2 false]

/-- Decorated orphan graph. -/
def orphanDG : DGraph := dgOf orphanObjects []

/-- Constructed (undecorated) graph of a scenario. -/
def graphOf (objects : List Object) (transitions : List Transition) : Graph :=
  (Graph.create objects transitions).getD ⟨[], [], []⟩

/-- Constructed stone-scenario graph. -/
def stoneGraph : Graph := graphOf stoneObjects stoneTransitions

/-- Constructed pruning-scenario graph. -/
def pruneGraph : Graph := graphOf pruneObjects pruneTransitions

/-- Constructed craft-cycle graph. -/
def cycleGraph : Graph := graphOf cycleObjects cycleTransitions

/-! ## Reachability along graph edges

Plain directed reachability over the edge list, used to state the claims
about reachability from the natural-node set. `succsWithout` optionally
deletes one edge (by index) from the graph. -/

/-- Successor nodes of `n`: the heads of its outgoing edges, skipping the
edge index `skip` when given. -/
def succsWithout (g : Graph) (skip : Option Nat) (n : Nat) : List Nat :=
  (g.out_edges.getD n []).filterMap
    (fun en =>
      if some en = skip then none
      else some ((g.edges.getD en default).to_node))

/-- Successor nodes of `n` in the full graph. -/
def succs (g : Graph) (n : Nat) : List Nat := succsWithout g none n

/-- Indices of the natural object nodes (the zero-complexity sources). -/
def naturalNodeIdxs (g : Graph) : List Nat :=
  (List.range g.nodes.length).filter
    (fun i =>
      match g.nodes.getD i default with
      | .obj o => o.is_natural
      | .trans _ => false)

/-- Reachability from a start set along a successor function. -/
inductive Reach (succ : Nat → List Nat) (S : List Nat) : Nat → Prop
  | base {x : Nat} (h : x ∈ S) : Reach succ S x
  | step {x y : Nat} (hx : Reach succ S x) (hy : y ∈ succ x) : Reach succ S y

/-! ## Propagation invariant

State invariant of `__propagate_complexity`, used for the complexity
bounds: complexities and nodes stay aligned, natural object nodes stay at
0, object complexities stay within `[0, DEFAULT_COMPLEXITY]`, and every
node on the worklist has a nonnegative complexity. -/

/-- The propagation invariant. -/
def PInv (nodes : List GNode) (s : PState) : Prop :=
  s.comp.length = nodes.length ∧
  (∀ (i : Nat) (o : Object), nodes[i]? = some (GNode.obj o) → o.is_natural = true →
    compAt s.comp i = 0) ∧
  (∀ (i : Nat) (o : Object), nodes[i]? = some (GNode.obj o) →
    0 ≤ compAt s.comp i ∧ compAt s.comp i ≤ DEFAULT_COMPLEXITY) ∧
  (∀ n ∈ s.toVisit, 0 ≤ compAt s.comp n)

/-- The four parent-selection modes. -/
def allIgnoreModes : List IgnoreMode :=
  [.NO_PARENTS, .LEAST_COMPLEX_PARENT, .ONLY_EXISTING_PARENTS, .ALL_PARENTS]

/-- Whether the full view pipeline (ancestor closure, then proxy
computation and rendering-view extraction on the resulting view) runs
without an error for a given view and target. -/
def viewPipelineOk (s : SubGraph) (t : Int) : Bool :=
  match s.leadingToObj t with
  | .error _ => false
  | .ok s' => s'.computeProxy.isOk && s'.toRenderView.isOk

/-- Whether the view pipeline succeeds on the two-natural-cycle graph for
every combination of the three per-class parent-selection modes and every
object of the graph. -/
def natCycleAllModesOk : Bool :=
  allIgnoreModes.all fun mn =>
    allIgnoreModes.all fun mc =>
      allIgnoreModes.all fun mo =>
        [(1 : Int), 2].all fun t =>
          viewPipelineOk
            { SubGraph.init natCycleDG with
              ignore_natural := mn
              ignore_categories := mc
              ignore_others := mo }
            t

/-! ## Tarjan traversal state, accessors and invariants -/

/-- Index (visit number) of node `i` in a Tarjan state. -/
def idxA (s : TState) (i : Nat) : Int := s.indexes.getD i (-1)

/-- Low-link value of node `i` in a Tarjan state. -/
def llA (s : TState) (i : Nat) : Int := s.low_link.getD i (-1)

/-- On-stack flag of node `i` in a Tarjan state. -/
def osA (s : TState) (i : Nat) : Bool := s.on_stack.getD i false

/-- Component id of node `i` in a Tarjan state. -/
def sccA (s : TState) (i : Nat) : Int := s.scc.getD i (-1)

/-- A node is visited when its index has been set. -/
def TVisited (s : TState) (i : Nat) : Prop := idxA s i ≠ -1

/-- A node is assigned when its component id has been set. -/
def TAssigned (s : TState) (i : Nat) : Prop := sccA s i ≠ -1

/-- Number of unvisited nodes, the fuel measure of the recursion. -/
def unvisitedCount (g : Graph) (s : TState) : Nat :=
  ((List.range g.nodes.length).filter (fun i => idxA s i = -1)).length

/-- All edge endpoints lie below the node count. -/
def EdgesOk (g : Graph) : Prop :=
  ∀ e ∈ g.edges, e.from_node < g.nodes.length ∧ e.to_node < g.nodes.length

/-- The quiescent invariant of the Tarjan traversal, relative to the
current recursion path `grays` (head = deepest active node). -/
structure TInv (g : Graph) (grays : List Nat) (s : TState) : Prop where
  ilen : s.indexes.length = g.nodes.length
  llen : s.low_link.length = g.nodes.length
  olen : s.on_stack.length = g.nodes.length
  slen : s.scc.length = g.nodes.length
  stack_lt : ∀ x ∈ s.stack, x < g.nodes.length
  idx_range : ∀ i, TVisited s i → 0 ≤ idxA s i ∧ idxA s i < (s.index : Int)
  unvis_scc : ∀ i, ¬TVisited s i → ¬TAssigned s i
  unvis_os : ∀ i, ¬TVisited s i → osA s i = false
  os_stack : ∀ i, osA s i = true ↔ i ∈ s.stack
  stack_sorted : s.stack.Pairwise (fun a b => idxA s b < idxA s a)
  stack_visited : ∀ x ∈ s.stack, TVisited s x
  stack_unassigned : ∀ x ∈ s.stack, ¬TAssigned s x
  vis_stack_or_assigned : ∀ i, i < g.nodes.length → TVisited s i →
    TAssigned s i ∨ i ∈ s.stack
  grays_stack : ∀ y ∈ grays, y ∈ s.stack
  grays_sorted : grays.Pairwise (fun a b => idxA s b < idxA s a)
  gray_reach_up : ∀ x ∈ s.stack, ∀ y ∈ grays, idxA s y ≤ idxA s x →
    Reach (succs g) [y] x
  black_wit : ∀ x ∈ s.stack, x ∉ grays →
    ∃ y ∈ grays, idxA s y ≤ idxA s x ∧ Reach (succs g) [x] y
  completed_succ : ∀ x, x < g.nodes.length → TVisited s x → x ∉ grays →
    ∀ w ∈ succs g x, TVisited s w
  assigned_closed : ∀ x, x < g.nodes.length → TAssigned s x →
    ∀ w ∈ succs g x, TAssigned s w
  assigned_iff : ∀ i j, i < g.nodes.length → j < g.nodes.length →
    TAssigned s i → TAssigned s j →
    (sccA s i = sccA s j ↔
      (Reach (succs g) [i] j ∧ Reach (succs g) [j] i))
  scc_lt : ∀ i, TAssigned s i → 0 ≤ sccA s i ∧ sccA s i < (s.scc_index : Int)

/-- Postcondition bundle of one `scon` call: `s` the entry state, `s'`
the exit state. -/
structure SconPost (g : Graph) (grays : List Nat) (s : TState) (v : Nat)
    (s' : TState) : Prop where
  inv : TInv g grays s'
  idx_v : idxA s' v = (s.index : Int)
  frame_idx : ∀ i, TVisited s i → idxA s' i = idxA s i
  frame_ll : ∀ i, TVisited s i → llA s' i = llA s i
  frame_scc : ∀ i, TAssigned s i → sccA s' i = sccA s i
  assigned_mono : ∀ i, TAssigned s i → TAssigned s' i
  stack_add : ∃ add, s'.stack = add ++ s.stack ∧
    ∀ x ∈ add, (s.index : Int) ≤ idxA s' x ∧ ¬TVisited s x
  new_reach : ∀ i, ¬TVisited s i → TVisited s' i → Reach (succs g) [v] i
  index_mono : s.index ≤ s'.index
  sccidx_mono : s.scc_index ≤ s'.scc_index
  ll_ub : llA s' v ≤ idxA s' v
  llwit : llA s' v < idxA s' v →
    ∃ y ∈ s'.stack, idxA s' y = llA s' v ∧ Reach (succs g) [v] y
  escape : ∀ z, ¬TVisited s z → TVisited s' z → z ∈ s'.stack →
    ∀ w ∈ succs g z, TVisited s' w ∧
      (TAssigned s' w ∨ llA s' v ≤ idxA s' w)
  pop_case : (s'.stack = s.stack ∧
      ∀ i, ¬TVisited s i → TVisited s' i → TAssigned s' i) ∨ v ∈ s'.stack
  uv_lt : unvisitedCount g s' < unvisitedCount g s

/-- The loop invariant of the edge fold inside `scon`: `s` is the entry
state of the call on `v`, `t` the current state. -/
structure ELoop (g : Graph) (grays : List Nat) (s : TState) (v : Nat)
    (t : TState) : Prop where
  inv : TInv g (v :: grays) t
  v_stack : v ∈ t.stack
  idx_v : idxA t v = (s.index : Int)
  frame_idx : ∀ i, TVisited s i → idxA t i = idxA s i
  frame_ll : ∀ i, TVisited s i → llA t i = llA s i
  frame_scc : ∀ i, TAssigned s i → sccA t i = sccA s i
  assigned_mono : ∀ i, TAssigned s i → TAssigned t i
  stack_add : ∃ add, t.stack = add ++ s.stack ∧
    ∀ x ∈ add, (s.index : Int) ≤ idxA t x ∧ ¬TVisited s x
  new_reach : ∀ i, ¬TVisited s i → TVisited t i → Reach (succs g) [v] i
  index_mono : s.index ≤ t.index
  sccidx_mono : s.scc_index ≤ t.scc_index
  ll_ub : llA t v ≤ idxA t v
  llwit : llA t v < idxA t v →
    ∃ y ∈ t.stack, idxA t y = llA t v ∧ Reach (succs g) [v] y
  escape_sub : ∀ z, ¬TVisited s z → TVisited t z → z ∈ t.stack → z ≠ v →
    ∀ w ∈ succs g z, TVisited t w ∧
      (TAssigned t w ∨ llA t v ≤ idxA t w)
  uv_lt : unvisitedCount g t < unvisitedCount g s

/-- The edge-processing step of `scon`, named for the proofs. -/
def sconBody (g : Graph) (fuel v : Nat) : TState → Nat → TState :=
  fun s en =>
    if s.indexes.getD ((g.edges.getD en default).to_node) (-1) = -1 then
      { scon g fuel ((g.edges.getD en default).to_node) s with
        low_link :=
          (scon g fuel ((g.edges.getD en default).to_node) s).low_link.set v
            (min ((scon g fuel ((g.edges.getD en default).to_node)
                s).low_link.getD v (-1))
              ((scon g fuel ((g.edges.getD en default).to_node)
                s).low_link.getD ((g.edges.getD en default).to_node) (-1))) }
    else if s.on_stack.getD ((g.edges.getD en default).to_node) false then
      { s with
        low_link := s.low_link.set v
          (min (s.low_link.getD v (-1))
            (s.indexes.getD ((g.edges.getD en default).to_node) (-1))) }
    else s

/-- The entry bookkeeping of `scon`: index, low-link, stack push. -/
def sconMark (v : Nat) (s : TState) : TState :=
  { s with
    indexes := s.indexes.set v (s.index : Int)
    low_link := s.low_link.set v (s.index : Int)
    index := s.index + 1
    stack := v :: s.stack
    on_stack := s.on_stack.set v true }

/-- Relative frame of one edge-processing step, used to transport the
already-established per-edge facts across the rest of the fold. -/
structure EStep (g : Graph) (v : Nat) (t t1 : TState) : Prop where
  frame_idx : ∀ i, TVisited t i → idxA t1 i = idxA t i
  assigned_mono : ∀ i, TAssigned t i → TAssigned t1 i
  vis_mono : ∀ i, TVisited t i → TVisited t1 i
  ll_v_le : llA t1 v ≤ llA t v

/-- The per-target post of an edge-processing step: the target is
visited, and either already assigned or bounded below by the current
low-link of the active node. -/
def EPost (g : Graph) (v : Nat) (t : TState) (w : Nat) : Prop :=
  TVisited t w ∧ (TAssigned t w ∨ llA t v ≤ idxA t w)

/-- The recursion hypothesis made available to the edge fold: every call
at the given fuel satisfies its postcondition. -/
def SconH (g : Graph) (fuel : Nat) : Prop :=
  ∀ (grays : List Nat) (v : Nat) (s : TState), TInv g grays s →
    v < g.nodes.length → ¬TVisited s v →
    (grays = [] ∨ ∃ gk gr, grays = gk :: gr ∧ v ∈ succs g gk) →
    unvisitedCount g s < fuel →
    SconPost g grays s v (scon g fuel v s)

/-- The body of the Tarjan main loop, named for the proofs. -/
def tarjanLoopBody (g : Graph) (n : Nat) : TState → Nat → TState :=
  fun s node =>
    if s.indexes.getD node (-1) = -1 then scon g (n + 1) node s else s

/-- The initial state of the Tarjan main loop. -/
def tarjanInit (n : Nat) : TState :=
  { index := 0
    indexes := List.replicate n (-1)
    low_link := List.replicate n (-1)
    on_stack := List.replicate n false
    stack := []
    scc := List.replicate n (-1)
    scc_index := 0 }

/-- The natural two-cycle scenario as a plain graph. -/
def natCycleGraph : Graph := graphOf natCycleObjects natCycleTransitions

/-! ## Claim theorems -/

/-- Claim C2, counterexample: in the stone scenario the claim expects the
transition node (node 2) to settle at complexity 0, but it settles at 1
(the BARE_HANDS input edge costs 1). -/
theorem c2_counterexample :
    stoneGraph.nodes.getD 2 default = GNode.trans ⟨0, 1, 0, 2, 0⟩ ∧
    (settle stoneGraph).toVisit = [] ∧
    compAt (settle stoneGraph).comp 2 ≠ 0 := by
  decide

/-- Claim C2, amended: in the stone scenario, propagation yields
complexity(Stone) = 0, complexity(transition node) = 1,
complexity(Stone Block) = 1, with the BARE_HANDS edge from Stone to the
transition node of cost 1 and the TRANSITION edge from the transition
node to Stone Block of cost 0. -/
theorem c2_amended :
    compAt (settle stoneGraph).comp 0 = 0 ∧
    compAt (settle stoneGraph).comp 2 = 1 ∧
    compAt (settle stoneGraph).comp 1 = 1 ∧
    stoneGraph.edges.getD 1 default =
      { from_node := 0, to_node := 2, category := .BARE_HANDS,
        transition := some ⟨0, 1, 0, 2, 0⟩, looping := false } ∧
    (stoneGraph.edges.getD 1 default).cost = 1 ∧
    stoneGraph.edges.getD 0 default =
      { from_node := 2, to_node := 1, category := .TRANSITION,
        transition := none, looping := false } ∧
    (stoneGraph.edges.getD 0 default).cost = 0 := by
  decide

/-- Claim C3, counterexample: in the half-fed-join scenario the first
propagation pass terminates with D (node 2) unreached, because the craft
node received only one of its two inputs and did not fire; rerunning the
pass on the settled complexities terminates but lowers D from the
sentinel to 1, so propagation is not an idempotent fixpoint. -/
theorem c3_counterexample :
    (settle halfGraph).toVisit = [] ∧
    compAt (settle halfGraph).comp 2 = DEFAULT_COMPLEXITY ∧
    (rerunPropagation halfGraph (settle halfGraph).comp).toVisit = [] ∧
    (rerunPropagation halfGraph (settle halfGraph).comp).comp ≠
      (settle halfGraph).comp ∧
    compAt (rerunPropagation halfGraph (settle halfGraph).comp).comp 2 = 1 := by
  decide

/-- Claim C3, amended: rerunning propagation terminates and changes no
complexity on a settled graph in which every reached transition node
fired to its outputs during the first pass, as in the stone scenario. -/
theorem c3_amended :
    (rerunPropagation stoneGraph (settle stoneGraph).comp).toVisit = [] ∧
    (rerunPropagation stoneGraph (settle stoneGraph).comp).comp =
      (settle stoneGraph).comp := by
  decide

/-- Claim C6, confirmed: in the two-object craft cycle (A to B and B back
to A through cost-1 craft input edges) with complexity(A) = 1 and
complexity(B) = 2, the in-component return distance from A back to B is
1, exactly the complexity gap, so the TRANSITION edge realizing the
B-to-A direction (edge 5, from the B-to-A craft node 7 to A, node 3) is
marked looping. -/
theorem c6_cycle_threshold :
    compAt cycleDG.comp 3 = compAt cycleDG.comp 4 - 1 ∧
    (cycleGraph.edges.getD 4 default).cost = 1 ∧
    (cycleGraph.edges.getD 7 default).cost = 1 ∧
    (loopBfs cycleGraph cycleGraph.tarjan 3).getD 4 (-1) =
      compAt cycleDG.comp 4 - compAt cycleDG.comp 3 ∧
    cycleDG.graph.edges.getD 5 default =
      { from_node := 7, to_node := 3, category := .TRANSITION,
        transition := none, looping := true } := by
  decide

/-- Claim C7, counterexample: the claim states that a negative
`max_distance` makes the ancestor closure unlimited, but on the chain
scenario with target C (object 4) a view with `max_distance = -2`
ignores every node except the target itself, while the unlimited closure
(`max_distance = 0`) ignores none, so the two closures differ. -/
theorem c7_counterexample :
    ((chainView (-2)).leadingToObj 4).map (·.ignored_nodes) =
      .ok [0, 1, 2, 4, 5, 6] ∧
    ((chainView 0).leadingToObj 4).map (·.ignored_nodes) = .ok ([] : List Nat) ∧
    ([0, 1, 2, 4, 5, 6] : List Nat) ≠ [] := by
  decide

/-- Claim C7, amended: on the chain scenario with target C,
`max_distance` of 0 or -1 yields the unlimited ancestor closure (nothing
ignored); `max_distance ≤ -2` keeps only the target; a positive
`max_distance` admits ancestors up to `max_distance + 1` hops (with
`max_distance = 1`, node B at hop distance 2 is still kept, nodes
further up are ignored). Every traversal ends with an empty worklist. -/
theorem c7_amended :
    ((chainView 0).leadingToObj 4).map (·.ignored_nodes) = .ok ([] : List Nat) ∧
    ((chainView (-1)).leadingToObj 4).map (·.ignored_nodes) = .ok ([] : List Nat) ∧
    ((chainView (-2)).leadingToObj 4).map (·.ignored_nodes) =
      .ok [0, 1, 2, 4, 5, 6] ∧
    ((chainView 1).leadingToObj 4).map (·.ignored_nodes) = .ok [0, 1, 4, 5] ∧
    ((chainView 1).ltoTraversal 4).map (·.toVisit) = .ok ([] : List Nat) ∧
    ((chainView 0).ltoTraversal 4).map (·.toVisit) = .ok ([] : List Nat) ∧
    ((chainView (-2)).ltoTraversal 4).map (·.toVisit) = .ok ([] : List Nat) := by
  decide

/-- Claim C8, counterexample: on the valid orphan graph (natural N and
object Z with no transitions), `leading_to_obj` targeting Z raises an
IndexError: Z is an ordinary object, its default mode is
LEAST_COMPLEX_PARENT, and `parents[0]` is read from an empty parent
list. -/
theorem c8_counterexample :
    (decorate orphanObjects []).isSome = true ∧
    (SubGraph.init orphanDG).leadingToObj 2 = .error .indexError := by
  decide

/-- Claim C8, amended: the view pipeline (ancestor closure, proxy
computation, rendering-view extraction) completes without error for
every combination of the three per-class parent-selection modes and
every target object, on a decorated graph in which every node keeps at
least one non-ignored incoming edge, such as the two-natural-cycle
graph. -/
theorem c8_amended : natCycleAllModesOk = true := by
  decide

/-- Claim C9, code bug: on the two-natural-cycle graph, M (node 1) is
natural, so its mode is NO_PARENTS, and its only incoming edge is edge 0;
`_edges_ignored_by_no_parent_nodes` computes the set containing the
incoming edges 0 and 2 of the two NO_PARENTS nodes, but `leading_to_obj`
discards the result of `set.union`, so after running it the ignored-edge
set is still empty and edge 0 is not in it, contradicting the claim. -/
theorem c9_union_discarded :
    (SubGraph.init natCycleDG).getIgnoreType 1 = .NO_PARENTS ∧
    natCycleDG.graph.incoming_edges.getD 1 [] = [0] ∧
    (SubGraph.init natCycleDG).edgesIgnoredByNoParentNodes = [0, 2] ∧
    ((SubGraph.init natCycleDG).leadingToObj 2).map (·.ignored_edges) =
      .ok ([] : List Nat) := by
  decide

/-- Complexity lookup after updating a different index. -/
theorem compAt_set_ne {l : List Int} {i j : Nat} (v : Int) (h : j ≠ i) :
    compAt (l.set i v) j = compAt l j := by
  unfold compAt
  simp [List.getD_eq_getElem?_getD, List.getElem?_set_ne (Ne.symm h)]

/-- Complexity lookup after updating the same, in-range index. -/
theorem compAt_set_self {l : List Int} {i : Nat} (v : Int) (h : i < l.length) :
    compAt (l.set i v) i = v := by
  unfold compAt
  simp [List.getD_eq_getElem?_getD, List.getElem?_set_self, h]

/-- Out-of-range complexity lookups give the default 0. -/
theorem compAt_oor {l : List Int} {i : Nat} (h : l.length ≤ i) :
    compAt l i = 0 := by
  unfold compAt
  simp [List.getD_eq_getElem?_getD, List.getElem?_eq_none_iff.mpr h]

/-- Membership in the sorted worklist after an insertion. -/
theorem mem_addVisit {n : Nat} : ∀ {l : List Nat} {m : Nat},
    m ∈ addVisit n l ↔ m = n ∨ m ∈ l := by
  intro l
  induction l with
  | nil =>
      intro m
      simp [addVisit]
  | cons a as ih =>
      intro m
      unfold addVisit
      split
      · simp [List.mem_cons]
      · split
        · next hna =>
            subst hna
            simp only [List.mem_cons]
            tauto
        · simp only [List.mem_cons, ih]
          tauto

/-- Edge costs are nonnegative. -/
theorem cost_nonneg (e : Edge) : 0 ≤ e.cost := by
  unfold Edge.cost
  split <;> decide

/-- Reduction of `relaxEdge` at an object node whose complexity strictly
exceeds the incoming value. -/
theorem relaxEdge_obj_update {nodes : List GNode} {e : Edge} {dist : Int}
    {s : PState} {o : Object}
    (hnode : nodes.getD e.to_node default = GNode.obj o)
    (hgt : compAt s.comp e.to_node > dist + e.cost) :
    relaxEdge nodes e dist s =
      { comp := s.comp.set e.to_node (dist + e.cost),
        toVisit := addVisit e.to_node s.toVisit } := by
  unfold relaxEdge
  rw [hnode]
  dsimp only [GNode.update_complexity]
  rw [if_pos hgt]
  rfl

/-- Reduction of `relaxEdge` at an object node that is not improved. -/
theorem relaxEdge_obj_noop {nodes : List GNode} {e : Edge} {dist : Int}
    {s : PState} {o : Object}
    (hnode : nodes.getD e.to_node default = GNode.obj o)
    (hle : ¬compAt s.comp e.to_node > dist + e.cost) :
    relaxEdge nodes e dist s =
      { comp := s.comp.set e.to_node (compAt s.comp e.to_node),
        toVisit := s.toVisit } := by
  unfold relaxEdge
  rw [hnode]
  dsimp only [GNode.update_complexity]
  rw [if_neg hle]
  rfl

/-- Reduction of `relaxEdge` at a transition node seen for the first
time. -/
theorem relaxEdge_trans_first {nodes : List GNode} {e : Edge} {dist : Int}
    {s : PState} {t : Transition}
    (hnode : nodes.getD e.to_node default = GNode.trans t)
    (hcur : compAt s.comp e.to_node = -1) :
    relaxEdge nodes e dist s =
      { comp := s.comp.set e.to_node (dist + e.cost),
        toVisit :=
          if t.get_input_objects.length = 1 then addVisit e.to_node s.toVisit
          else s.toVisit } := by
  unfold relaxEdge
  rw [hnode]
  dsimp only [GNode.update_complexity]
  rw [if_pos hcur]
  by_cases h1 : t.get_input_objects.length = 1 <;> simp [h1]

/-- Reduction of `relaxEdge` at a transition node seen again. -/
theorem relaxEdge_trans_again {nodes : List GNode} {e : Edge} {dist : Int}
    {s : PState} {t : Transition}
    (hnode : nodes.getD e.to_node default = GNode.trans t)
    (hcur : ¬compAt s.comp e.to_node = -1) :
    relaxEdge nodes e dist s =
      { comp := s.comp.set e.to_node (max (compAt s.comp e.to_node) (dist + e.cost)),
        toVisit := addVisit e.to_node s.toVisit } := by
  unfold relaxEdge
  rw [hnode]
  dsimp only [GNode.update_complexity]
  rw [if_neg hcur]
  rfl

/-- Relaxing one edge with a nonnegative source distance preserves the
propagation invariant. -/
theorem relax_pres {nodes : List GNode} {e : Edge} {dist : Int} {s : PState}
    (hdist : 0 ≤ dist) (h : PInv nodes s) :
    PInv nodes (relaxEdge nodes e dist s) := by
  obtain ⟨hlen, hnat, hobj, hvis⟩ := h
  have hinc : 0 ≤ dist + e.cost := add_nonneg hdist (cost_nonneg e)
  rcases hnode : nodes[e.to_node]? with - | node
  · -- out of range: the node list ends before `to_node`, the complexity
    -- list too, so the `List.set` is a no-op and lookups give 0
    have hge : nodes.length ≤ e.to_node := List.getElem?_eq_none_iff.mp hnode
    have hgec : s.comp.length ≤ e.to_node := hlen ▸ hge
    have hset : ∀ v : Int, s.comp.set e.to_node v = s.comp :=
      fun v => List.set_eq_of_length_le hgec
    have hcomp0 : compAt s.comp e.to_node = 0 := compAt_oor hgec
    have hdflt : nodes.getD e.to_node default = GNode.obj ⟨0, false, false, []⟩ := by
      simp [List.getD_eq_getElem?_getD, hnode]
      rfl
    have hngt : ¬compAt s.comp e.to_node > dist + e.cost := by
      rw [hcomp0]
      omega
    have hred := relaxEdge_obj_noop hdflt hngt
    rw [hred, hset]
    exact ⟨hlen, hnat, hobj, hvis⟩
  · have hlt : e.to_node < nodes.length := (List.getElem?_eq_some.mp hnode).1
    have hltc : e.to_node < s.comp.length := hlen ▸ hlt
    have hgetD : nodes.getD e.to_node default = node := by
      simp [List.getD_eq_getElem?_getD, hnode]
    rcases node with o | t
    · -- object node: the complexity may only strictly decrease
      by_cases hgt : compAt s.comp e.to_node > dist + e.cost
      · rw [relaxEdge_obj_update hgetD hgt]
        refine ⟨by simpa using hlen, ?_, ?_, ?_⟩
        · intro i o' hio hnato
          by_cases hie : i = e.to_node
          · subst hie
            have h0 := hnat e.to_node o' hio hnato
            rw [h0] at hgt
            exfalso
            omega
          · rw [compAt_set_ne _ hie]
            exact hnat i o' hio hnato
        · intro i o' hio
          by_cases hie : i = e.to_node
          · subst hie
            rw [compAt_set_self _ hltc]
            have hb := hobj e.to_node o' hio
            omega
          · rw [compAt_set_ne _ hie]
            exact hobj i o' hio
        · intro n hn
          rcases mem_addVisit.mp hn with rfl | hmem
          · rw [compAt_set_self _ hltc]
            exact hinc
          · by_cases hne : n = e.to_node
            · subst hne
              rw [compAt_set_self _ hltc]
              exact hinc
            · rw [compAt_set_ne _ hne]
              exact hvis n hmem
      · rw [relaxEdge_obj_noop hgetD hgt]
        have hsame : ∀ j, compAt (s.comp.set e.to_node (compAt s.comp e.to_node)) j =
            compAt s.comp j := by
          intro j
          by_cases hje : j = e.to_node
          · subst hje
            exact compAt_set_self _ hltc
          · exact compAt_set_ne _ hje
        refine ⟨by simpa using hlen, ?_, ?_, ?_⟩
        · intro i o' hio hnato
          rw [hsame]
          exact hnat i o' hio hnato
        · intro i o' hio
          rw [hsame]
          exact hobj i o' hio
        · intro n hn
          rw [hsame]
          exact hvis n hn
    · -- transition node: no object invariant mentions this index
      have hne_obj : ∀ i o, nodes[i]? = some (GNode.obj o) → i ≠ e.to_node := by
        intro i o hio hie
        subst hie
        rw [hio] at hnode
        cases hnode
      have hval : ∀ v : Int, 0 ≤ v →
          PInv nodes
            { comp := s.comp.set e.to_node v,
              toVisit := addVisit e.to_node s.toVisit } := by
        intro v hv
        refine ⟨by simpa using hlen, ?_, ?_, ?_⟩
        · intro i o' hio hnato
          rw [compAt_set_ne _ (hne_obj i o' hio)]
          exact hnat i o' hio hnato
        · intro i o' hio
          rw [compAt_set_ne _ (hne_obj i o' hio)]
          exact hobj i o' hio
        · intro n hn
          rcases mem_addVisit.mp hn with rfl | hmem
          · rw [compAt_set_self _ hltc]
            exact hv
          · by_cases hne : n = e.to_node
            · subst hne
              rw [compAt_set_self _ hltc]
              exact hv
            · rw [compAt_set_ne _ hne]
              exact hvis n hmem
      have hval' : ∀ v : Int, 0 ≤ v →
          PInv nodes
            { comp := s.comp.set e.to_node v, toVisit := s.toVisit } := by
        intro v hv
        refine ⟨by simpa using hlen, ?_, ?_, ?_⟩
        · intro i o' hio hnato
          rw [compAt_set_ne _ (hne_obj i o' hio)]
          exact hnat i o' hio hnato
        · intro i o' hio
          rw [compAt_set_ne _ (hne_obj i o' hio)]
          exact hobj i o' hio
        · intro n hn
          by_cases hne : n = e.to_node
          · subst hne
            rw [compAt_set_self _ hltc]
            exact hv
          · rw [compAt_set_ne _ hne]
            exact hvis n hn
      by_cases hcur : compAt s.comp e.to_node = -1
      · rw [relaxEdge_trans_first hgetD hcur]
        by_cases h1 : t.get_input_objects.length = 1
        · rw [if_pos h1]
          exact hval _ hinc
        · rw [if_neg h1]
          exact hval' _ hinc
      · rw [relaxEdge_trans_again hgetD hcur]
        exact hval _ (le_trans hinc (le_max_right _ _))

/-- Folding edge relaxations preserves the propagation invariant. -/
theorem foldl_relax_pres {nodes : List GNode} {edges : List Edge} {dist : Int}
    (hdist : 0 ≤ dist) :
    ∀ (ens : List Nat) (s : PState), PInv nodes s →
      PInv nodes
        (ens.foldl (fun s' en => relaxEdge nodes (edges.getD en default) dist s') s) := by
  intro ens
  induction ens with
  | nil =>
      intro s h
      exact h
  | cons a as ih =>
      intro s h
      exact ih _ (relax_pres hdist h)

/-- One step of the propagation loop preserves the invariant. -/
theorem propStep_pres {g : Graph} : ∀ {s : PState},
    PInv g.nodes s → PInv g.nodes (propStep g s) := by
  intro s h
  obtain ⟨comp, tv⟩ := s
  rcases tv with - | ⟨c, rest⟩
  · exact h
  · have hd : 0 ≤ compAt comp c := h.2.2.2 c (by simp)
    have hbase : PInv g.nodes ⟨comp, rest⟩ :=
      ⟨h.1, h.2.1, h.2.2.1, fun n hn => h.2.2.2 n (by simp [hn])⟩
    exact foldl_relax_pres hd _ _ hbase

/-- The whole propagation loop preserves the invariant, for any fuel. -/
theorem propagateAux_pres (g : Graph) :
    ∀ (fuel : Nat) (s : PState), PInv g.nodes s →
      PInv g.nodes (propagateAux g fuel s) := by
  intro fuel
  induction fuel with
  | zero =>
      intro s h
      exact h
  | succ f ih =>
      intro s h
      show PInv g.nodes (propagateAux g (f + 1) s)
      simp only [propagateAux]
      split
      · exact h
      · exact ih _ (propStep_pres h)

/-- The initial propagation state satisfies the invariant. -/
theorem initPState_inv (g : Graph) : PInv g.nodes (initPState g) := by
  have hget : ∀ i : Nat, (initCompOf g.nodes)[i]? =
      (g.nodes[i]?).map GNode.initComplexity := by
    intro i
    simp [initCompOf, List.getElem?_map]
  refine ⟨by simp [initPState, initCompOf], ?_, ?_, ?_⟩
  · intro i o hio hnato
    show compAt (initCompOf g.nodes) i = 0
    unfold compAt
    rw [List.getD_eq_getElem?_getD, hget i, hio]
    simp [GNode.initComplexity, hnato]
  · intro i o hio
    show 0 ≤ compAt (initCompOf g.nodes) i ∧
      compAt (initCompOf g.nodes) i ≤ DEFAULT_COMPLEXITY
    unfold compAt
    rw [List.getD_eq_getElem?_getD, hget i, hio]
    have hri : (Option.map GNode.initComplexity (some (GNode.obj o))).getD 0 =
        if o.is_natural then 0 else DEFAULT_COMPLEXITY := rfl
    rw [hri]
    constructor <;> split <;> decide
  · intro n hn
    have hc : compAt (initCompOf g.nodes) n = 0 := by
      have := List.mem_filter.mp hn
      exact of_decide_eq_true this.2
    show 0 ≤ compAt (initCompOf g.nodes) n
    rw [hc]

/-- Claim C10, counterexample: in the half-fed-join scenario, D (node 2)
is an object node reachable from the natural node A along graph edges,
yet after propagation its complexity is the unreached sentinel, because
the two-input craft node on the only path never fired. -/
theorem c10_counterexample :
    halfGraph.nodes.getD 2 default = GNode.obj (mkObj 3 false) ∧
    Reach (succs halfGraph) (naturalNodeIdxs halfGraph) 2 ∧
    (settle halfGraph).toVisit = [] ∧
    compAt (settle halfGraph).comp 2 = DEFAULT_COMPLEXITY := by
  refine ⟨by decide, ?_, by decide, by decide⟩
  have h0 : (0 : Nat) ∈ naturalNodeIdxs halfGraph := by decide
  have h1 : (3 : Nat) ∈ succs halfGraph 0 := by decide
  have h2 : (2 : Nat) ∈ succs halfGraph 3 := by decide
  exact .step (.step (.base h0) h1) h2

/-- Claim C10, amended: after any number of propagation steps on a
constructed graph, every natural object node has complexity exactly 0
and every object node has a complexity between 0 and the unreached
sentinel; an object node merely edge-reachable from a natural node can
still sit at the sentinel (see the counterexample), so finiteness is
only guaranteed for nodes the propagation actually reached. -/
theorem c10_amended (objects : List Object) (transitions : List Transition)
    (g : Graph) (_hg : Graph.create objects transitions = some g) (fuel : Nat) :
    (∀ i o, g.nodes[i]? = some (GNode.obj o) → o.is_natural = true →
      compAt (propagateAux g fuel (initPState g)).comp i = 0) ∧
    (∀ i o, g.nodes[i]? = some (GNode.obj o) →
      0 ≤ compAt (propagateAux g fuel (initPState g)).comp i ∧
        compAt (propagateAux g fuel (initPState g)).comp i ≤ DEFAULT_COMPLEXITY) := by
  have h := propagateAux_pres g fuel (initPState g) (initPState_inv g)
  exact ⟨h.2.1, h.2.2.1⟩

/-- Witness for the amended C10 claim, on the stone scenario: Stone
(node 0) is natural and settles at complexity 0, and Stone Block
(node 1) settles within the bounds. -/
theorem c10_amended_witness :
    Graph.create stoneObjects stoneTransitions = some stoneGraph ∧
    compAt (settle stoneGraph).comp 0 = 0 ∧
    (0 ≤ compAt (settle stoneGraph).comp 1 ∧
      compAt (settle stoneGraph).comp 1 ≤ DEFAULT_COMPLEXITY) := by
  refine ⟨by decide, ?_, ?_⟩
  · exact (c10_amended stoneObjects stoneTransitions stoneGraph (by decide)
      (propFuel stoneGraph)).1 0 (mkObj 1 true) (by decide) rfl
  · exact (c10_amended stoneObjects stoneTransitions stoneGraph (by decide)
      (propFuel stoneGraph)).2 1 (mkObj 2 false) (by decide)


/-! ## Tarjan correctness (claim C4) -/

/-- Reachability from a singleton start is reflexive. -/
theorem reach_refl (succ : Nat → List Nat) (i : Nat) : Reach succ [i] i :=
  .base (by simp)

/-- Reachability out of a singleton start composes. -/
theorem reach_trans {succ : Nat → List Nat} {i j k : Nat}
    (hij : Reach succ [i] j) (hjk : Reach succ [j] k) : Reach succ [i] k := by
  induction hjk with
  | base h =>
      rw [List.mem_singleton] at h
      exact h ▸ hij
  | step hx hy ih => exact .step ih hy

/-- Unfolding of one reachability step from a singleton start. -/
theorem reach_singleton_cases {succ : Nat → List Nat} {i j : Nat}
    (h : Reach succ [i] j) :
    j = i ∨ ∃ x, Reach succ [i] x ∧ j ∈ succ x := by
  cases h with
  | base h => exact .inl (by simpa using h)
  | step hx hy => exact .inr ⟨_, hx, hy⟩

/-- The out-edge row of an in-range node lists exactly the edge indices
leaving it. -/
theorem mem_out_edges {g : Graph} {x : Nat} (hx : x < g.nodes.length) (en : Nat) :
    en ∈ g.out_edges.getD x [] ↔
      en < g.edges.length ∧ (g.edges.getD en default).from_node = x := by
  unfold Graph.out_edges
  rw [List.getD_eq_getElem?_getD, List.getElem?_map, List.getElem?_range hx]
  simp [List.mem_filter, List.mem_range]

/-- The out-edge row of an out-of-range node is empty. -/
theorem out_edges_oor {g : Graph} {x : Nat} (hx : g.nodes.length ≤ x) :
    g.out_edges.getD x [] = [] := by
  unfold Graph.out_edges
  rw [List.getD_eq_getElem?_getD, List.getElem?_map]
  rw [List.getElem?_eq_none_iff.mpr (by simpa using hx)]
  rfl

/-- Membership in the successor list, as an edge existence statement,
for a well-formed graph. -/
theorem mem_succs_iff {g : Graph} (hWF : EdgesOk g) {x y : Nat} :
    y ∈ succs g x ↔ ∃ en, en < g.edges.length ∧
      (g.edges.getD en default).from_node = x ∧
      (g.edges.getD en default).to_node = y := by
  constructor
  · intro h
    rcases List.mem_filterMap.mp h with ⟨en, hen, heq⟩
    simp only [reduceCtorEq, if_false, Option.some.injEq] at heq
    by_cases hx : x < g.nodes.length
    · rcases (mem_out_edges hx en).mp hen with ⟨h1, h2⟩
      exact ⟨en, h1, h2, heq⟩
    · rw [out_edges_oor (by omega)] at hen
      cases hen
  · rintro ⟨en, hlen, hfrom, hto⟩
    have he : g.edges.getD en default ∈ g.edges := by
      rw [List.getD_eq_getElem _ _ hlen]
      exact List.getElem_mem hlen
    have hx : x < g.nodes.length := by
      have h1 := (hWF _ he).1
      rw [hfrom] at h1
      exact h1
    unfold succs succsWithout
    refine List.mem_filterMap.mpr ⟨en, (mem_out_edges hx en).mpr ⟨hlen, hfrom⟩, ?_⟩
    rw [if_neg (by simp), hto]

/-- Successors of a well-formed graph stay below the node count. -/
theorem succs_lt {g : Graph} (hWF : EdgesOk g) {x y : Nat}
    (h : y ∈ succs g x) : y < g.nodes.length := by
  rcases (mem_succs_iff hWF).mp h with ⟨en, hlen, -, hto⟩
  have he : g.edges.getD en default ∈ g.edges := by
    rw [List.getD_eq_getElem _ _ hlen]
    exact List.getElem_mem hlen
  have := (hWF _ he).2
  omega

/-- Generic invariant preservation through an `Option`-valued fold. -/
theorem foldlM_option_inv {α β : Type} (P : β → Prop) {f : β → α → Option β}
    (hf : ∀ b a, P b → ∀ b', f b a = some b' → P b') :
    ∀ (l : List α) (b r : β), P b → l.foldlM f b = some r → P r := by
  intro l
  induction l with
  | nil =>
      intro b r hb h
      simp only [List.foldlM_nil] at h
      cases h
      exact hb
  | cons a as ih =>
      intro b r hb h
      rw [List.foldlM_cons] at h
      cases hfa : f b a with
      | none =>
          rw [hfa] at h
          cases h
      | some b' =>
          rw [hfa] at h
          exact ih b' r (hf b a hb b' hfa) h

/-- The object-to-node map built by the first construction loop points
below the object-node count. -/
theorem createObjNodes_bound (objects : List Object) :
    ∀ p ∈ (createObjNodes objects).2, p.2 < (createObjNodes objects).1.length := by
  unfold createObjNodes
  suffices h : ∀ (l : List Object) (acc : List GNode × List (Int × Nat)),
      (∀ p ∈ acc.2, p.2 < acc.1.length) →
      ∀ p ∈ (l.foldl (fun acc obj =>
        if obj.identifier > 0 then
          (acc.1 ++ [GNode.obj obj], acc.2 ++ [(obj.identifier, acc.1.length)])
        else acc) acc).2,
        p.2 < (l.foldl (fun acc obj =>
          if obj.identifier > 0 then
            (acc.1 ++ [GNode.obj obj], acc.2 ++ [(obj.identifier, acc.1.length)])
          else acc) acc).1.length by
    exact h objects ([], []) (by simp)
  intro l
  induction l with
  | nil =>
      intro acc hacc
      simpa using hacc
  | cons a as ih =>
      intro acc hacc
      simp only [List.foldl_cons]
      apply ih
      split
      · intro p hp
        simp only [List.mem_append, List.mem_singleton] at hp
        rcases hp with hp | hp
        · have := hacc p hp
          simp only [List.length_append, List.length_singleton]
          omega
        · subst hp
          simp only [List.length_append, List.length_singleton]
          omega
      · exact hacc

/-- A successful map lookup stays below any bound of the map values. -/
theorem lookupNode_lt {m : List (Int × Nat)} {k : Int} {v B : Nat}
    (hm : ∀ p ∈ m, p.2 < B) (h : lookupNode m k = some v) : v < B := by
  unfold lookupNode at h
  cases hfind : m.find? (fun p => p.1 = k) with
  | none =>
      rw [hfind] at h
      cases h
  | some p =>
      rw [hfind] at h
      cases h
      exact hm p (List.mem_of_find?_eq_some hfind)

/-- Category edges point below the object-node count. -/
theorem createCategoryEdges_bound {m : List (Int × Nat)} {B : Nat}
    (hm : ∀ p ∈ m, p.2 < B) (objects : List Object) (es : List Edge)
    (h : createCategoryEdges m objects = some es) :
    ∀ e ∈ es, e.from_node < B ∧ e.to_node < B := by
  unfold createCategoryEdges at h
  have hbase : ∀ e ∈ ([] : List Edge), e.from_node < B ∧ e.to_node < B := by
    intro e he
    cases he
  refine foldlM_option_inv
    (fun es => ∀ e ∈ es, e.from_node < B ∧ e.to_node < B)
    ?_ objects [] es hbase h
  intro es0 obj hes0 es1 h1
  refine foldlM_option_inv
    (fun es => ∀ e ∈ es, e.from_node < B ∧ e.to_node < B)
    ?_ obj.category_contains es0 es1 hes0 h1
  intro es2 c hes2 es3 h3
  simp only [Option.bind_eq_bind, bind, Option.bind] at h3
  cases hf : lookupNode m c with
  | none =>
      rw [hf] at h3
      cases h3
  | some f =>
      rw [hf] at h3
      cases ht : lookupNode m obj.identifier with
      | none =>
          rw [ht] at h3
          cases h3
      | some t =>
          rw [ht] at h3
          cases h3
          intro e he
          simp only [List.mem_append, List.mem_singleton] at he
          rcases he with he | he
          · exact hes2 e he
          · subst he
            exact ⟨lookupNode_lt hm hf, lookupNode_lt hm ht⟩

/-- Transition nodes and edges built by the third construction loop stay
below the final node count. -/
theorem createTransitionPart_bound {m : List (Int × Nat)} {startIdx : Nat}
    (hm : ∀ p ∈ m, p.2 < startIdx) (ts : List Transition)
    (r : List GNode × List Edge) (h : createTransitionPart m startIdx ts = some r) :
    ∀ e ∈ r.2, e.from_node < startIdx + r.1.length ∧
      e.to_node < startIdx + r.1.length := by
  unfold createTransitionPart at h
  have hbase : ∀ e ∈ (([], []) : List GNode × List Edge).2,
      e.from_node < startIdx + (([], []) : List GNode × List Edge).1.length ∧
      e.to_node < startIdx + (([], []) : List GNode × List Edge).1.length := by
    intro e he
    cases he
  refine foldlM_option_inv
    (fun acc : List GNode × List Edge => ∀ e ∈ acc.2,
      e.from_node < startIdx + acc.1.length ∧ e.to_node < startIdx + acc.1.length)
    ?_ ts ([], []) r hbase h
  intro acc t hacc r' h'
  obtain ⟨outEdges, hout, h'⟩ := Option.bind_eq_some.mp h'
  obtain ⟨inEdges, hin, h'⟩ := Option.bind_eq_some.mp h'
  cases h'
  have houtB : ∀ e ∈ outEdges,
      e.from_node < startIdx + acc.1.length + 1 ∧
      e.to_node < startIdx + acc.1.length + 1 := by
    have hb2 : ∀ e ∈ ([] : List Edge),
        e.from_node < startIdx + acc.1.length + 1 ∧
        e.to_node < startIdx + acc.1.length + 1 := by
      intro e he
      cases he
    refine foldlM_option_inv
      (fun es => ∀ e ∈ es, e.from_node < startIdx + acc.1.length + 1 ∧
        e.to_node < startIdx + acc.1.length + 1)
      ?_ t.get_output_objects [] outEdges hb2 hout
    intro es o hes es' h''
    split at h''
    · cases h''
      exact hes
    · obtain ⟨tgt, hl, h''⟩ := Option.bind_eq_some.mp h''
      cases h''
      intro e he
      rcases List.mem_append.mp he with he | he
      · exact hes e he
      · rw [List.mem_singleton] at he
        subst he
        have := lookupNode_lt hm hl
        refine ⟨?_, ?_⟩ <;> simp <;> try omega
  have hinB : ∀ e ∈ inEdges,
      e.from_node < startIdx + acc.1.length + 1 ∧
      e.to_node < startIdx + acc.1.length + 1 := by
    have hb3 : ∀ e ∈ ([] : List Edge),
        e.from_node < startIdx + acc.1.length + 1 ∧
        e.to_node < startIdx + acc.1.length + 1 := by
      intro e he
      cases he
    refine foldlM_option_inv
      (fun es => ∀ e ∈ es, e.from_node < startIdx + acc.1.length + 1 ∧
        e.to_node < startIdx + acc.1.length + 1)
      ?_ t.get_input_objects [] inEdges hb3 hin
    intro es i hes es' h''
    obtain ⟨src, hl, h''⟩ := Option.bind_eq_some.mp h''
    cases h''
    intro e he
    rcases List.mem_append.mp he with he | he
    · exact hes e he
    · rw [List.mem_singleton] at he
      subst he
      have := lookupNode_lt hm hl
      refine ⟨?_, ?_⟩ <;> simp <;> try omega
  intro e he
  simp only [List.mem_append] at he
  simp only [List.length_append, List.length_singleton]
  rcases he with (he | he) | he
  · have := hacc e he
    omega
  · have := houtB e he
    omega
  · have := hinB e he
    omega

/-- Every created graph has its edge endpoints below the node count. -/
theorem create_edgesOk {objects : List Object} {transitions : List Transition}
    {g : Graph} (h : Graph.create objects transitions = some g) : EdgesOk g := by
  unfold Graph.create at h
  simp only [Option.bind_eq_bind, bind, Option.bind] at h
  cases hcat : createCategoryEdges (createObjNodes objects).2 objects with
  | none =>
      rw [hcat] at h
      cases h
  | some catEdges =>
      rw [hcat] at h
      cases htr : createTransitionPart (createObjNodes objects).2
          (createObjNodes objects).1.length transitions with
      | none =>
          rw [htr] at h
          cases h
      | some tpart =>
          rw [htr] at h
          cases h
          intro e he
          simp only [List.mem_append] at he
          have hmB := createObjNodes_bound objects
          simp only [List.length_append]
          rcases he with he | he
          · have := createCategoryEdges_bound hmB objects catEdges hcat e he
            omega
          · have := createTransitionPart_bound hmB transitions tpart htr e he
            omega

/-- Reachability propagates through any successor-closed predicate. -/
theorem reach_pred_closed {succ : Nat → List Nat} {P : Nat → Prop}
    (hP : ∀ z, P z → ∀ w ∈ succ z, P w) :
    ∀ {x y : Nat}, P x → Reach succ [x] y → P y := by
  intro x y hx h
  induction h with
  | base h =>
      rw [List.mem_singleton] at h
      exact h ▸ hx
  | step hx' hy ih => exact hP _ ih _ hy

/-- A visited node stays visited through a call (from the index frame). -/
theorem sconPost_vis_mono {g : Graph} {grays : List Nat} {s : TState}
    {v : Nat} {s' : TState} (p : SconPost g grays s v s') :
    ∀ i, TVisited s i → TVisited s' i := by
  intro i h
  unfold TVisited at h ⊢
  rw [p.frame_idx i h]
  exact h

/-- A visited node stays visited through the loop. -/
theorem eloop_vis_mono {g : Graph} {grays : List Nat} {s : TState}
    {v : Nat} {t : TState} (p : ELoop g grays s v t) :
    ∀ i, TVisited s i → TVisited t i := by
  intro i h
  unfold TVisited at h ⊢
  rw [p.frame_idx i h]
  exact h

/-- Lookup after an update at a different position. -/
theorem getD_set_ne' {α : Type} (l : List α) (i j : Nat) (a d : α) (h : j ≠ i) :
    (l.set i a).getD j d = l.getD j d := by
  simp [List.getD_eq_getElem?_getD, List.getElem?_set_ne (Ne.symm h)]

/-- Lookup after an update at the same, in-range position. -/
theorem getD_set_self' {α : Type} (l : List α) (i : Nat) (a d : α)
    (h : i < l.length) : (l.set i a).getD i d = a := by
  simp [List.getD_eq_getElem?_getD, List.getElem?_set_self, h]

/-- Two decompositions of a list along the same predicate boundary
agree. -/
theorem partition_eq {α : Type} {P : α → Prop} :
    ∀ {a : List α} {b c d : List α}, a ++ b = c ++ d →
    (∀ x ∈ a, P x) → (∀ x ∈ b, ¬P x) → (∀ x ∈ c, P x) → (∀ x ∈ d, ¬P x) →
    a = c ∧ b = d := by
  intro a
  induction a with
  | nil =>
      intro b c d heq ha hb hc hd
      cases c with
      | nil =>
          simp at heq
          exact ⟨rfl, heq⟩
      | cons y c' =>
          exfalso
          simp only [List.nil_append] at heq
          have : y ∈ b := by
            rw [heq]
            simp
          exact hb y this (hc y (by simp))
  | cons x a' ih =>
      intro b c d heq ha hb hc hd
      cases c with
      | nil =>
          exfalso
          simp only [List.nil_append] at heq
          have : x ∈ d := by
            rw [← heq]
            simp
          exact hd x this (ha x (by simp))
      | cons y c' =>
          simp only [List.cons_append, List.cons.injEq] at heq
          obtain ⟨rfl, heq⟩ := heq
          obtain ⟨h1, h2⟩ := ih heq (fun z hz => ha z (by simp [hz]))
            hb (fun z hz => hc z (by simp [hz])) hd
          exact ⟨by rw [h1], h2⟩

/-- Full characterization of `popScc` on a stack decomposed around the
popped-to node. -/
theorem popScc_spec (v k : Nat) :
    ∀ (front : List Nat) (rest : List Nat) (os : List Bool) (sc : List Int),
    v ∉ front →
    (∀ x ∈ front, x < os.length ∧ x < sc.length) →
    v < os.length → v < sc.length →
    (popScc v k (front ++ v :: rest) os sc).1 = rest ∧
    (popScc v k (front ++ v :: rest) os sc).2.1.length = os.length ∧
    (popScc v k (front ++ v :: rest) os sc).2.2.length = sc.length ∧
    (∀ i, i ∉ front → i ≠ v →
      (popScc v k (front ++ v :: rest) os sc).2.1.getD i false = os.getD i false ∧
      (popScc v k (front ++ v :: rest) os sc).2.2.getD i (-1) = sc.getD i (-1)) ∧
    (∀ i, i ∈ front ∨ i = v →
      (popScc v k (front ++ v :: rest) os sc).2.1.getD i false = false ∧
      (popScc v k (front ++ v :: rest) os sc).2.2.getD i (-1) = (k : Int)) := by
  intro front
  induction front with
  | nil =>
      intro rest os sc hv hlt hvo hvs
      simp only [List.nil_append]
      unfold popScc
      rw [if_pos rfl]
      refine ⟨rfl, by simp, by simp, ?_, ?_⟩
      · intro i hif hiv
        exact ⟨getD_set_ne' _ _ _ _ _ hiv, getD_set_ne' _ _ _ _ _ hiv⟩
      · intro i hi
        rcases hi with hi | hi
        · cases hi
        · subst hi
          exact ⟨getD_set_self' _ _ _ _ hvo, getD_set_self' _ _ _ _ hvs⟩
  | cons x front' ih =>
      intro rest os sc hv hlt hvo hvs
      have hxv : x ≠ v := fun h => hv (by simp [h])
      have hxo : x < os.length := (hlt x (by simp)).1
      have hxs : x < sc.length := (hlt x (by simp)).2
      simp only [List.cons_append]
      unfold popScc
      rw [if_neg hxv]
      have hv' : v ∉ front' := fun h => hv (by simp [h])
      have hlt' : ∀ y ∈ front', y < (os.set x false).length ∧
          y < (sc.set x (k : Int)).length := by
        intro y hy
        have := hlt y (by simp [hy])
        simpa using this
      obtain ⟨h1, h2, h3, h4, h5⟩ := ih rest (os.set x false) (sc.set x (k : Int))
        hv' hlt' (by simpa using hvo) (by simpa using hvs)
      refine ⟨h1, by simpa using h2, by simpa using h3, ?_, ?_⟩
      · intro i hif hiv
        have hix : i ≠ x := fun h => hif (by simp [h])
        have hif' : i ∉ front' := fun h => hif (by simp [h])
        obtain ⟨ha, hb⟩ := h4 i hif' hiv
        rw [ha, hb, getD_set_ne' _ _ _ _ _ hix, getD_set_ne' _ _ _ _ _ hix]
        exact ⟨rfl, rfl⟩
      · intro i hi
        rcases hi with hi | hi
        · rcases List.mem_cons.mp hi with hi | hi
          · subst hi
            by_cases hmem : i ∈ front'
            · exact h5 i (Or.inl hmem)
            · obtain ⟨ha, hb⟩ := h4 i hmem hxv
              rw [ha, hb, getD_set_self' _ _ _ _ hxo, getD_set_self' _ _ _ _ hxs]
              exact ⟨rfl, rfl⟩
          · exact h5 i (Or.inl hi)
        · exact h5 i (Or.inr hi)

/-- Unfolding of `scon` at positive fuel in terms of the named pieces. -/
theorem scon_unfold (g : Graph) (fuel v : Nat) (s : TState) :
    scon g (fuel + 1) v s =
      (fun s2 =>
        if s2.low_link.getD v (-1) = s2.indexes.getD v (-1) then
          { s2 with
            stack := (popScc v s2.scc_index s2.stack s2.on_stack s2.scc).1
            on_stack := (popScc v s2.scc_index s2.stack s2.on_stack s2.scc).2.1
            scc := (popScc v s2.scc_index s2.stack s2.on_stack s2.scc).2.2
            scc_index := s2.scc_index + 1 }
        else s2)
      ((g.out_edges.getD v []).foldl (sconBody g fuel v) (sconMark v s)) := rfl

/-- Filter lengths are monotone under pointwise implication. -/
theorem length_filter_mono {α : Type} {p q : α → Bool} :
    ∀ (l : List α), (∀ x ∈ l, q x = true → p x = true) →
    (l.filter q).length ≤ (l.filter p).length := by
  intro l
  induction l with
  | nil =>
      intro h
      simp
  | cons a l' ih =>
      intro h
      have ih' := ih (fun x hx => h x (by simp [hx]))
      by_cases hq : q a = true
      · have hp := h a (by simp) hq
        simp [List.filter_cons, hq, hp]
        omega
      · rw [List.filter_cons, if_neg (by simp [hq])]
        by_cases hp : p a = true
        · rw [List.filter_cons, if_pos (by simp [hp])]
          simp
          omega
        · rw [List.filter_cons, if_neg (by simp [hp])]
          exact ih'

/-- Filter lengths drop strictly when one satisfying element is lost. -/
theorem length_filter_lt {α : Type} [DecidableEq α] {p q : α → Bool} :
    ∀ (l : List α), (∀ x ∈ l, q x = true → p x = true) →
    ∀ x₀ ∈ l, p x₀ = true → q x₀ = false →
    (l.filter q).length < (l.filter p).length := by
  intro l
  induction l with
  | nil =>
      intro h x₀ hx₀
      cases hx₀
  | cons a l' ih =>
      intro h x₀ hx₀ hp₀ hq₀
      have himp : ∀ x ∈ l', q x = true → p x = true :=
        fun x hx => h x (List.mem_cons_of_mem a hx)
      rcases List.mem_cons.mp hx₀ with rfl | hx₀
      · have hmono := length_filter_mono l' himp
        simp [List.filter_cons, hp₀, hq₀]
        omega
      · have hlt := ih himp x₀ hx₀ hp₀ hq₀
        by_cases hq : q a = true
        · have hp := h a (List.mem_cons_self a l') hq
          simp [List.filter_cons, hp, hq]
          omega
        · have hq' : q a = false := by simpa using hq
          by_cases hp : p a = true
          · simp [List.filter_cons, hp, hq']
            omega
          · have hp' : p a = false := by simpa using hp
            simp [List.filter_cons, hp', hq']
            omega

/-- Index lookup on the marked state, at the marked node. -/
theorem idxA_mark_self {s : TState} {v : Nat} (h : v < s.indexes.length) :
    idxA (sconMark v s) v = (s.index : Int) := by
  unfold idxA sconMark
  exact getD_set_self' _ _ _ _ h

/-- Index lookup on the marked state, elsewhere. -/
theorem idxA_mark_ne {s : TState} {v i : Nat} (h : i ≠ v) :
    idxA (sconMark v s) i = idxA s i := by
  unfold idxA sconMark
  exact getD_set_ne' _ _ _ _ _ h

/-- Low-link lookup on the marked state, at the marked node. -/
theorem llA_mark_self {s : TState} {v : Nat} (h : v < s.low_link.length) :
    llA (sconMark v s) v = (s.index : Int) := by
  unfold llA sconMark
  exact getD_set_self' _ _ _ _ h

/-- Low-link lookup on the marked state, elsewhere. -/
theorem llA_mark_ne {s : TState} {v i : Nat} (h : i ≠ v) :
    llA (sconMark v s) i = llA s i := by
  unfold llA sconMark
  exact getD_set_ne' _ _ _ _ _ h

/-- On-stack lookup on the marked state, at the marked node. -/
theorem osA_mark_self {s : TState} {v : Nat} (h : v < s.on_stack.length) :
    osA (sconMark v s) v = true := by
  unfold osA sconMark
  exact getD_set_self' _ _ _ _ h

/-- On-stack lookup on the marked state, elsewhere. -/
theorem osA_mark_ne {s : TState} {v i : Nat} (h : i ≠ v) :
    osA (sconMark v s) i = osA s i := by
  unfold osA sconMark
  exact getD_set_ne' _ _ _ _ _ h

/-- Component lookups are untouched by the marking. -/
theorem sccA_mark {s : TState} {v i : Nat} :
    sccA (sconMark v s) i = sccA s i := rfl

/-- TAssigned is untouched by the marking. -/
theorem tassigned_mark {s : TState} {v i : Nat} :
    TAssigned (sconMark v s) i ↔ TAssigned s i := Iff.rfl

/-- A natural-number index is never the -1 sentinel. -/
theorem natCast_ne_neg_one (n : Nat) : (n : Int) ≠ -1 := by
  omega

/-- Visitedness on the marked state. -/
theorem tvisited_mark {s : TState} {v : Nat} (hv : v < s.indexes.length) :
    ∀ i, TVisited (sconMark v s) i ↔ i = v ∨ TVisited s i := by
  intro i
  by_cases hiv : i = v
  · subst hiv
    unfold TVisited
    rw [idxA_mark_self hv]
    simp [natCast_ne_neg_one]
  · unfold TVisited
    rw [idxA_mark_ne hiv]
    simp [hiv]

/-- The entry bookkeeping of `scon` establishes the edge-loop
invariant. -/
theorem mark_eloop {g : Graph} {grays : List Nat} {s : TState} {v : Nat}
    (hinv : TInv g grays s) (hvn : v < g.nodes.length) (hnv : ¬TVisited s v)
    (hedge : grays = [] ∨ ∃ gk gr, grays = gk :: gr ∧ v ∈ succs g gk) :
    ELoop g grays s v (sconMark v s) := by
  have hvi : v < s.indexes.length := by
    rw [hinv.ilen]
    exact hvn
  have hvl : v < s.low_link.length := by
    rw [hinv.llen]
    exact hvn
  have hvo : v < s.on_stack.length := by
    rw [hinv.olen]
    exact hvn
  have hvis := tvisited_mark (s := s) hvi
  have hvstack : v ∉ s.stack := fun h => hnv (hinv.stack_visited v h)
  have hidx_old : ∀ i, i ≠ v → idxA (sconMark v s) i = idxA s i :=
    fun i h => idxA_mark_ne h
  have hstack_ne : ∀ x ∈ s.stack, x ≠ v := by
    intro x hx h
    exact hvstack (h ▸ hx)
  have hstack_idx : ∀ x ∈ s.stack, idxA s x < (s.index : Int) := by
    intro x hx
    exact (hinv.idx_range x (hinv.stack_visited x hx)).2
  have hgray_ne : ∀ y ∈ grays, y ≠ v :=
    fun y hy => hstack_ne y (hinv.grays_stack y hy)
  refine
    { inv := ?hInv
      v_stack := by simp [sconMark]
      idx_v := idxA_mark_self hvi
      frame_idx := ?hFidx
      frame_ll := ?hFll
      frame_scc := fun i _ => sccA_mark
      assigned_mono := fun i h => h
      stack_add := ⟨[v], by simp [sconMark], ?hAdd⟩
      new_reach := ?hNew
      index_mono := by simp [sconMark]
      sccidx_mono := le_refl _
      ll_ub := by rw [llA_mark_self hvl, idxA_mark_self hvi]
      llwit := ?hWit
      escape_sub := ?hEsc
      uv_lt := ?hUv }
  -- the invariant, field by field
  case hInv =>
    refine
      { ilen := by simp [sconMark, hinv.ilen]
        llen := by simp [sconMark, hinv.llen]
        olen := by simp [sconMark, hinv.olen]
        slen := by simp [sconMark, hinv.slen]
        stack_lt := ?hstack_lt
        idx_range := ?hidx_range
        unvis_scc := ?hunvis_scc
        unvis_os := ?hunvis_os
        os_stack := ?hos_stack
        stack_sorted := ?hstack_sorted
        stack_visited := ?hstack_visited
        stack_unassigned := ?hstack_unassigned
        vis_stack_or_assigned := ?hvsa
        grays_stack := ?hgrays_stack
        grays_sorted := ?hgrays_sorted
        gray_reach_up := ?hgru
        black_wit := ?hbw
        completed_succ := ?hcs
        assigned_closed := ?hac
        assigned_iff := ?hai
        scc_lt := ?hscc_lt }
    case hstack_lt =>
      intro x hx
      rcases List.mem_cons.mp hx with hxv | hx
      · subst hxv
        exact hvn
      · exact hinv.stack_lt x hx
    case hidx_range =>
      intro i hi
      rcases (hvis i).mp hi with hiv | hold
      · subst hiv
        rw [idxA_mark_self hvi]
        constructor
        · omega
        · show (s.index : Int) < ((s.index + 1 : Nat) : Int)
          push_cast
          omega
      · have hne : i ≠ v := by
          intro h
          exact hnv (h ▸ hold)
        rw [idxA_mark_ne hne]
        have := hinv.idx_range i hold
        constructor
        · exact this.1
        · show idxA s i < ((s.index + 1 : Nat) : Int)
          push_cast
          push_cast at this
          omega
    case hunvis_scc =>
      intro i hi
      rw [tassigned_mark]
      refine hinv.unvis_scc i ?_
      intro h
      exact hi ((hvis i).mpr (Or.inr h))
    case hunvis_os =>
      intro i hi
      have hne : i ≠ v := by
        intro h
        exact hi ((hvis i).mpr (Or.inl h))
      rw [osA_mark_ne hne]
      refine hinv.unvis_os i ?_
      intro h
      exact hi ((hvis i).mpr (Or.inr h))
    case hos_stack =>
      intro i
      rw [show (sconMark v s).stack = v :: s.stack from rfl]
      by_cases hne : i = v
      · subst hne
        rw [osA_mark_self hvo]
        simp
      · rw [osA_mark_ne hne]
        rw [hinv.os_stack i]
        simp [hne]
    case hstack_sorted =>
      rw [show (sconMark v s).stack = v :: s.stack from rfl]
      refine List.Pairwise.cons ?_ ?_
      · intro b hb
        rw [idxA_mark_self hvi, idxA_mark_ne (hstack_ne b hb)]
        exact hstack_idx b hb
      · refine hinv.stack_sorted.imp_of_mem ?_
        intro a b ha hb hab
        rw [idxA_mark_ne (hstack_ne a ha), idxA_mark_ne (hstack_ne b hb)]
        exact hab
    case hstack_visited =>
      intro x hx
      rcases List.mem_cons.mp hx with hxv | hx
      · subst hxv
        exact (hvis x).mpr (Or.inl rfl)
      · exact (hvis x).mpr (Or.inr (hinv.stack_visited x hx))
    case hstack_unassigned =>
      intro x hx
      rw [tassigned_mark]
      rcases List.mem_cons.mp hx with hxv | hx
      · subst hxv
        exact hinv.unvis_scc x hnv
      · exact hinv.stack_unassigned x hx
    case hvsa =>
      intro i hi hvi'
      rcases (hvis i).mp hvi' with hiv | hold
      · subst hiv
        exact Or.inr (by simp [sconMark])
      · rcases hinv.vis_stack_or_assigned i hi hold with h | h
        · exact Or.inl (tassigned_mark.mpr h)
        · exact Or.inr (by simp [sconMark, h])
    case hgrays_stack =>
      intro y hy
      rcases List.mem_cons.mp hy with hyv | hy
      · subst hyv
        simp [sconMark]
      · simp [sconMark]
        exact Or.inr (hinv.grays_stack y hy)
    case hgrays_sorted =>
      refine List.Pairwise.cons ?_ ?_
      · intro b hb
        rw [idxA_mark_self hvi, idxA_mark_ne (hgray_ne b hb)]
        exact hstack_idx b (hinv.grays_stack b hb)
      · refine hinv.grays_sorted.imp_of_mem ?_
        intro a b ha hb hab
        rw [idxA_mark_ne (hgray_ne a ha), idxA_mark_ne (hgray_ne b hb)]
        exact hab
    case hgru =>
      intro x hx y hy hle
      rcases List.mem_cons.mp hy with hyv | hyg
      · subst hyv
        rcases List.mem_cons.mp hx with hxv | hxs
        · subst hxv
          exact reach_refl _ _
        · exfalso
          rw [idxA_mark_self hvi, idxA_mark_ne (hstack_ne x hxs)] at hle
          have := hstack_idx x hxs
          omega
      · rcases List.mem_cons.mp hx with hxv | hxs
        · subst hxv
          rcases hedge with hge | ⟨gk, gr, hg, hsucc⟩
          · rw [hge] at hyg
            cases hyg
          · have hygk : idxA s y ≤ idxA s gk := by
              have hsorted := hinv.grays_sorted
              rw [hg] at hsorted
              have hmem : y = gk ∨ y ∈ gr := by
                have := hyg
                rw [hg] at this
                exact List.mem_cons.mp this
              rcases hmem with h' | h'
              · rw [h']
              · have := List.rel_of_pairwise_cons hsorted h'
                omega
            have hkg : gk ∈ grays := by
              rw [hg]
              simp
            have hkstack : gk ∈ s.stack := hinv.grays_stack gk hkg
            have hreach : Reach (succs g) [y] gk :=
              hinv.gray_reach_up gk hkstack y hyg hygk
            exact .step hreach hsucc
        · rw [idxA_mark_ne (hgray_ne y hyg), idxA_mark_ne (hstack_ne x hxs)] at hle
          exact hinv.gray_reach_up x hxs y hyg hle
    case hbw =>
      intro x hx hxg
      have hxv : x ≠ v := by
        intro h
        exact hxg (by simp [h])
      have hx' : x ∈ s.stack := by
        rcases List.mem_cons.mp hx with rfl | hx
        · exact absurd rfl hxv
        · exact hx
      have hxg' : x ∉ grays := fun h => hxg (by simp [h])
      obtain ⟨y, hy, hle, hr⟩ := hinv.black_wit x hx' hxg'
      refine ⟨y, by simp [hy], ?_, hr⟩
      rw [idxA_mark_ne (hgray_ne y hy), idxA_mark_ne hxv]
      exact hle
    case hcs =>
      intro x hx hvx hxg w hw
      have hxv : x ≠ v := by
        intro h
        exact hxg (by simp [h])
      have hvx' : TVisited s x := by
        rcases (hvis x).mp hvx with h | h
        · exact absurd h hxv
        · exact h
      have hxg' : x ∉ grays := fun h => hxg (by simp [h])
      have := hinv.completed_succ x hx hvx' hxg' w hw
      exact (hvis w).mpr (Or.inr this)
    case hac =>
      intro x hx hax w hw
      rw [tassigned_mark] at hax ⊢
      exact hinv.assigned_closed x hx hax w hw
    case hai =>
      intro i j hi hj hai haj
      rw [tassigned_mark] at hai haj
      rw [show sccA (sconMark v s) i = sccA s i from rfl,
        show sccA (sconMark v s) j = sccA s j from rfl]
      exact hinv.assigned_iff i j hi hj hai haj
    case hscc_lt =>
      intro i hai
      rw [tassigned_mark] at hai
      exact hinv.scc_lt i hai
  case hFidx =>
    intro i hi
    refine idxA_mark_ne ?_
    intro h
    exact hnv (h ▸ hi)
  case hFll =>
    intro i hi
    refine llA_mark_ne ?_
    intro h
    exact hnv (h ▸ hi)
  case hAdd =>
    intro x hx
    rw [List.mem_singleton] at hx
    subst hx
    rw [idxA_mark_self hvi]
    exact ⟨le_refl _, hnv⟩
  case hNew =>
    intro i hi hvi'
    rcases (hvis i).mp hvi' with hiv | h
    · subst hiv
      exact reach_refl _ _
    · exact absurd h hi
  case hWit =>
    intro h
    rw [llA_mark_self hvl, idxA_mark_self hvi] at h
    omega
  case hEsc =>
    intro z hz hvz hzs hzv w hw
    rcases (hvis z).mp hvz with h | h
    · exact absurd h hzv
    · exact absurd h hz
  case hUv =>
    unfold unvisitedCount
    refine length_filter_lt (List.range g.nodes.length) ?_ v ?_ ?_ ?_
    · intro i hi hq
      rw [decide_eq_true_iff] at hq ⊢
      by_cases hne : i = v
      · subst hne
        rw [idxA_mark_self hvi] at hq
        exact absurd hq (natCast_ne_neg_one _)
      · rw [idxA_mark_ne hne] at hq
        exact hq
    · rw [List.mem_range]
      exact hvn
    · rw [decide_eq_true_iff]
      unfold TVisited at hnv
      by_contra h
      exact hnv h
    · rw [decide_eq_false_iff_not]
      rw [idxA_mark_self hvi]
      exact natCast_ne_neg_one _

/-- The reflexive step frame. -/
theorem EStep.refl (g : Graph) (v : Nat) (t : TState) : EStep g v t t :=
  ⟨fun _ _ => rfl, fun _ h => h, fun _ h => h, le_refl _⟩

/-- Step frames compose. -/
theorem EStep.trans {g : Graph} {v : Nat} {t t1 t2 : TState}
    (a : EStep g v t t1) (b : EStep g v t1 t2) : EStep g v t t2 := by
  refine ⟨?_, ?_, ?_, ?_⟩
  · intro i h
    rw [b.frame_idx i (a.vis_mono i h), a.frame_idx i h]
  · intro i h
    exact b.assigned_mono i (a.assigned_mono i h)
  · intro i h
    exact b.vis_mono i (a.vis_mono i h)
  · exact le_trans b.ll_v_le a.ll_v_le

/-- The Tarjan invariant ignores the low-link array (only its length
matters). -/
theorem tinv_ll_irrel {g : Graph} {grays : List Nat} {t : TState}
    {ll' : List Int} (h : TInv g grays t)
    (hlen : ll'.length = t.low_link.length) :
    TInv g grays { t with low_link := ll' } :=
  { ilen := h.ilen
    llen := by
      show ll'.length = g.nodes.length
      rw [hlen]
      exact h.llen
    olen := h.olen
    slen := h.slen
    stack_lt := h.stack_lt
    idx_range := h.idx_range
    unvis_scc := h.unvis_scc
    unvis_os := h.unvis_os
    os_stack := h.os_stack
    stack_sorted := h.stack_sorted
    stack_visited := h.stack_visited
    stack_unassigned := h.stack_unassigned
    vis_stack_or_assigned := h.vis_stack_or_assigned
    grays_stack := h.grays_stack
    grays_sorted := h.grays_sorted
    gray_reach_up := h.gray_reach_up
    black_wit := h.black_wit
    completed_succ := h.completed_succ
    assigned_closed := h.assigned_closed
    assigned_iff := h.assigned_iff
    scc_lt := h.scc_lt }

/-- Accessors of a state whose low-link array was updated. -/
theorem llA_set_self {t : TState} {v : Nat} {x : Int}
    (h : v < t.low_link.length) :
    llA { t with low_link := t.low_link.set v x } v = x :=
  getD_set_self' _ _ _ _ h

/-- Low-link lookup elsewhere after an update. -/
theorem llA_set_ne {t : TState} {v i : Nat} {x : Int} (h : i ≠ v) :
    llA { t with low_link := t.low_link.set v x } i = llA t i :=
  getD_set_ne' _ _ _ _ _ h

/-- The per-target post survives later edge-processing steps. -/
theorem epost_mono {g : Graph} {v : Nat} {t t1 : TState} {w : Nat}
    (hp : EPost g v t w) (hstep : EStep g v t t1) : EPost g v t1 w := by
  obtain ⟨hv, hd⟩ := hp
  refine ⟨hstep.vis_mono w hv, ?_⟩
  rcases hd with h | h
  · exact Or.inl (hstep.assigned_mono w h)
  · refine Or.inr ?_
    rw [hstep.frame_idx w hv]
    exact le_trans hstep.ll_v_le h

/-- Processing a back edge to a node on the stack preserves the loop
invariant; the target satisfies the per-target post. -/
theorem eloop_back {g : Graph} {grays : List Nat} {s t : TState}
    {v other : Nat} (hel : ELoop g grays s v t) (hnsv : ¬TVisited s v)
    (hsucc : other ∈ succs g v) (hos : osA t other = true) (t1 : TState)
    (ht1 : t1 = { t with
      low_link := t.low_link.set v (min (llA t v) (idxA t other)) }) :
    ELoop g grays s v t1 ∧ EStep g v t t1 ∧ EPost g v t1 other := by
  subst ht1
  have hvn : v < g.nodes.length := hel.inv.stack_lt v hel.v_stack
  have hvl : v < t.low_link.length := by
    rw [hel.inv.llen]
    exact hvn
  have hothers : other ∈ t.stack := (hel.inv.os_stack other).mp hos
  have hll_v : llA { t with
      low_link := t.low_link.set v (min (llA t v) (idxA t other)) } v =
      min (llA t v) (idxA t other) := llA_set_self hvl
  have hll_ne : ∀ i, i ≠ v → llA { t with
      low_link := t.low_link.set v (min (llA t v) (idxA t other)) } i =
      llA t i :=
    fun i h => llA_set_ne h
  refine ⟨?_, ?_, ?_⟩
  · refine
      { inv := tinv_ll_irrel hel.inv (by simp)
        v_stack := hel.v_stack
        idx_v := hel.idx_v
        frame_idx := fun i h => hel.frame_idx i h
        frame_ll := ?hFll
        frame_scc := fun i h => hel.frame_scc i h
        assigned_mono := fun i h => hel.assigned_mono i h
        stack_add := hel.stack_add
        new_reach := fun i h1 h2 => hel.new_reach i h1 h2
        index_mono := hel.index_mono
        sccidx_mono := hel.sccidx_mono
        ll_ub := ?hUb
        llwit := ?hWit
        escape_sub := ?hEsc
        uv_lt := hel.uv_lt }
    case hFll =>
      intro i h
      have hne : i ≠ v := fun he => hnsv (he ▸ h)
      rw [hll_ne i hne]
      exact hel.frame_ll i h
    case hUb =>
      rw [hll_v]
      exact le_trans (min_le_left _ _) hel.ll_ub
    case hWit =>
      intro h
      rw [hll_v] at h ⊢
      rcases le_or_lt (llA t v) (idxA t other) with hle | hlt
      · rw [min_eq_left hle] at h ⊢
        have h' : llA t v < idxA t v := h
        obtain ⟨y, hy, hidxy, hry⟩ := hel.llwit h'
        exact ⟨y, hy, hidxy, hry⟩
      · rw [min_eq_right (le_of_lt hlt)] at h ⊢
        exact ⟨other, hothers, rfl, Reach.step (reach_refl _ _) hsucc⟩
    case hEsc =>
      intro z hz hvz hzs hzv w hw
      have hres := hel.escape_sub z hz hvz hzs hzv w hw
      refine ⟨hres.1, ?_⟩
      rcases hres.2 with h | h
      · exact Or.inl h
      · refine Or.inr ?_
        rw [hll_v]
        exact le_trans (min_le_left _ _) h
  · refine ⟨fun i h => rfl, fun i h => h, fun i h => h, ?_⟩
    rw [hll_v]
    exact min_le_left _ _
  · refine ⟨hel.inv.stack_visited other hothers, Or.inr ?_⟩
    rw [hll_v]
    exact min_le_right _ _

/-- Processing an edge to a visited node off the stack: the target is
already assigned. -/
theorem eloop_cross {g : Graph} {grays : List Nat} {s t : TState}
    {v other : Nat} (hel : ELoop g grays s v t)
    (hon : other < g.nodes.length) (hvis : TVisited t other)
    (hos : osA t other = false) : EPost g v t other := by
  refine ⟨hvis, Or.inl ?_⟩
  rcases hel.inv.vis_stack_or_assigned other hon hvis with h | h
  · exact h
  · exfalso
    have := (hel.inv.os_stack other).mpr h
    rw [hos] at this
    simp at this

/-- Processing a tree edge: the recursive call satisfies its
postcondition, and the parent low-link update preserves the loop
invariant. -/
theorem eloop_rec {g : Graph} {grays : List Nat} {s t t' : TState}
    {v other : Nat} (hel : ELoop g grays s v t) (hnsv : ¬TVisited s v)
    (hsucc : other ∈ succs g v) (hnvo : ¬TVisited t other)
    (p : SconPost g (v :: grays) t other t') (t1 : TState)
    (ht1 : t1 = { t' with
      low_link := t'.low_link.set v (min (llA t' v) (llA t' other)) }) :
    ELoop g grays s v t1 ∧ EStep g v t t1 ∧ EPost g v t1 other := by
  subst ht1
  have hvn : v < g.nodes.length := hel.inv.stack_lt v hel.v_stack
  have hvt : TVisited t v := hel.inv.stack_visited v hel.v_stack
  have hvl' : v < t'.low_link.length := by
    rw [p.inv.llen]
    exact hvn
  have hidx_vt : idxA t' v = idxA t v := p.frame_idx v hvt
  have hll_vt : llA t' v = llA t v := p.frame_ll v hvt
  have hvstack' : v ∈ t'.stack := by
    obtain ⟨add, hadd, -⟩ := p.stack_add
    rw [hadd]
    exact List.mem_append_right _ hel.v_stack
  have hll1_v : llA { t' with
      low_link := t'.low_link.set v (min (llA t' v) (llA t' other)) } v =
      min (llA t' v) (llA t' other) := llA_set_self hvl'
  have hll1_ne : ∀ i, i ≠ v → llA { t' with
      low_link := t'.low_link.set v (min (llA t' v) (llA t' other)) } i =
      llA t' i :=
    fun i h => llA_set_ne h
  have hvto' : TVisited t' other := by
    unfold TVisited
    rw [p.idx_v]
    exact natCast_ne_neg_one _
  refine ⟨?_, ?_, ?_⟩
  · refine
      { inv := tinv_ll_irrel p.inv (by simp)
        v_stack := hvstack'
        idx_v := ?hIdx
        frame_idx := ?hFidx
        frame_scc := ?hFscc
        frame_ll := ?hFll
        assigned_mono := fun i h => p.assigned_mono i (hel.assigned_mono i h)
        stack_add := ?hAdd
        new_reach := ?hNew
        index_mono := le_trans hel.index_mono p.index_mono
        sccidx_mono := le_trans hel.sccidx_mono p.sccidx_mono
        ll_ub := ?hUb
        llwit := ?hWit
        escape_sub := ?hEsc
        uv_lt := lt_trans p.uv_lt hel.uv_lt }
    case hIdx =>
      show idxA t' v = _
      rw [hidx_vt]
      exact hel.idx_v
    case hFidx =>
      intro i h
      show idxA t' i = idxA s i
      rw [p.frame_idx i (eloop_vis_mono hel i h)]
      exact hel.frame_idx i h
    case hFscc =>
      intro i h
      show sccA t' i = sccA s i
      rw [p.frame_scc i (hel.assigned_mono i h)]
      exact hel.frame_scc i h
    case hFll =>
      intro i h
      have hne : i ≠ v := fun he => hnsv (he ▸ h)
      rw [hll1_ne i hne, p.frame_ll i (eloop_vis_mono hel i h)]
      exact hel.frame_ll i h
    case hAdd =>
      obtain ⟨add', hadd', hprop'⟩ := p.stack_add
      obtain ⟨add, hadd, hprop⟩ := hel.stack_add
      refine ⟨add' ++ add, ?_, ?_⟩
      · show t'.stack = add' ++ add ++ s.stack
        rw [hadd', hadd, List.append_assoc]
      · intro x hx
        rcases List.mem_append.mp hx with hx | hx
        · obtain ⟨h1, h2⟩ := hprop' x hx
          refine ⟨?_, fun hvx => h2 (eloop_vis_mono hel x hvx)⟩
          show (s.index : Int) ≤ idxA t' x
          have hcast : (s.index : Int) ≤ (t.index : Int) := by
            exact_mod_cast hel.index_mono
          exact le_trans hcast h1
        · obtain ⟨h1, h2⟩ := hprop x hx
          refine ⟨?_, h2⟩
          show (s.index : Int) ≤ idxA t' x
          have hxt : x ∈ t.stack := by
            rw [hadd]
            exact List.mem_append_left _ hx
          rw [p.frame_idx x (hel.inv.stack_visited x hxt)]
          exact h1
    case hNew =>
      intro i hi hvi
      by_cases hti : TVisited t i
      · exact hel.new_reach i hi hti
      · have hr := p.new_reach i hti hvi
        exact reach_trans (Reach.step (reach_refl _ v) hsucc) hr
    case hUb =>
      rw [hll1_v]
      show _ ≤ idxA t' v
      rw [hidx_vt]
      refine le_trans (min_le_left _ _) ?_
      rw [hll_vt]
      exact hel.ll_ub
    case hWit =>
      intro h
      rw [hll1_v] at h ⊢
      rcases le_or_lt (llA t' v) (llA t' other) with hle | hlt
      · rw [min_eq_left hle] at h ⊢
        have h' : llA t' v < idxA t' v := h
        rw [hll_vt, hidx_vt] at h'
        obtain ⟨y, hy, hidxy, hry⟩ := hel.llwit h'
        have hyvis : TVisited t y := hel.inv.stack_visited y hy
        have hyt' : y ∈ t'.stack := by
          obtain ⟨add', hadd', -⟩ := p.stack_add
          rw [hadd']
          exact List.mem_append_right _ hy
        refine ⟨y, hyt', ?_, hry⟩
        show idxA t' y = llA t' v
        rw [p.frame_idx y hyvis, hidxy, hll_vt]
      · rw [min_eq_right (le_of_lt hlt)] at h ⊢
        have hstrict : llA t' other < idxA t' other := by
          rcases lt_or_eq_of_le p.ll_ub with h' | h'
          · exact h'
          · exfalso
            have h1 : llA t' other < llA t' v := hlt
            have h2 : llA t' v = llA t v := hll_vt
            have h3 : llA t v ≤ idxA t v := hel.ll_ub
            have h4 : idxA t v = (s.index : Int) := hel.idx_v
            have h5 : (s.index : Int) ≤ (t.index : Int) := by
              exact_mod_cast hel.index_mono
            have h6 : idxA t' other = (t.index : Int) := p.idx_v
            rw [h', h6] at h1
            omega
        obtain ⟨y, hy, hidxy, hry⟩ := p.llwit hstrict
        refine ⟨y, hy, hidxy,
          reach_trans (Reach.step (reach_refl _ v) hsucc) hry⟩
    case hEsc =>
      intro z hz hvz hzs hzv w hw
      by_cases htz : TVisited t z
      · have hzt : z ∈ t.stack := by
          obtain ⟨add', hadd', hprop'⟩ := p.stack_add
          have hzs' : z ∈ t'.stack := hzs
          rw [hadd'] at hzs'
          rcases List.mem_append.mp hzs' with h | h
          · exact absurd htz (hprop' z h).2
          · exact h
        obtain ⟨hvw, hdisj⟩ := hel.escape_sub z hz htz hzt hzv w hw
        refine ⟨sconPost_vis_mono p w hvw, ?_⟩
        rcases hdisj with h | h
        · exact Or.inl (p.assigned_mono w h)
        · refine Or.inr ?_
          show _ ≤ idxA t' w
          rw [hll1_v, p.frame_idx w hvw]
          refine le_trans (min_le_left _ _) ?_
          rw [hll_vt]
          exact h
      · obtain ⟨hvw, hdisj⟩ := p.escape z htz hvz hzs w hw
        refine ⟨hvw, ?_⟩
        rcases hdisj with h | h
        · exact Or.inl h
        · refine Or.inr ?_
          show _ ≤ idxA t' w
          rw [hll1_v]
          exact le_trans (min_le_right _ _) h
  · refine ⟨fun i h => p.frame_idx i h, fun i h => p.assigned_mono i h,
      fun i h => sconPost_vis_mono p i h, ?_⟩
    rw [hll1_v]
    refine le_trans (min_le_left _ _) ?_
    rw [hll_vt]
  · refine ⟨hvto', ?_⟩
    rcases p.pop_case with ⟨hstk, hassign⟩ | hos'
    · exact Or.inl (hassign other hnvo hvto')
    · refine Or.inr ?_
      show _ ≤ idxA t' other
      rw [hll1_v]
      exact le_trans (min_le_right _ _) p.ll_ub

/-- `sconBody` on an unvisited target, unfolded. -/
theorem sconBody_eq_unvis (g : Graph) (fuel v en : Nat) (t : TState)
    (h : t.indexes.getD ((g.edges.getD en default).to_node) (-1) = -1) :
    sconBody g fuel v t en =
      { scon g fuel ((g.edges.getD en default).to_node) t with
        low_link :=
          (scon g fuel ((g.edges.getD en default).to_node) t).low_link.set v
            (min (llA (scon g fuel ((g.edges.getD en default).to_node) t) v)
              (llA (scon g fuel ((g.edges.getD en default).to_node) t)
                ((g.edges.getD en default).to_node))) } := by
  unfold sconBody
  rw [if_pos h]
  rfl

/-- `sconBody` on a visited, on-stack target, unfolded. -/
theorem sconBody_eq_back (g : Graph) (fuel v en : Nat) (t : TState)
    (h : ¬t.indexes.getD ((g.edges.getD en default).to_node) (-1) = -1)
    (h2 : t.on_stack.getD ((g.edges.getD en default).to_node) false = true) :
    sconBody g fuel v t en =
      { t with
        low_link := t.low_link.set v
          (min (llA t v) (idxA t ((g.edges.getD en default).to_node))) } := by
  unfold sconBody
  rw [if_neg h, if_pos h2]
  rfl

/-- `sconBody` on a visited, off-stack target is the identity. -/
theorem sconBody_eq_skip (g : Graph) (fuel v en : Nat) (t : TState)
    (h : ¬t.indexes.getD ((g.edges.getD en default).to_node) (-1) = -1)
    (h2 : ¬t.on_stack.getD ((g.edges.getD en default).to_node) false = true) :
    sconBody g fuel v t en = t := by
  unfold sconBody
  rw [if_neg h, if_neg (by simpa using h2)]

/-- The edge fold of `scon` preserves the loop invariant and produces
the per-target post for every processed edge. -/
theorem efold_spec {g : Graph} {fuel : Nat} (hWF : EdgesOk g)
    (IH : SconH g fuel) {grays : List Nat} {s : TState} {v : Nat}
    (hnsv : ¬TVisited s v) (hfuel : unvisitedCount g s ≤ fuel) :
    ∀ (ens : List Nat) (t : TState), ELoop g grays s v t →
      (∀ en ∈ ens, en < g.edges.length ∧
        (g.edges.getD en default).from_node = v) →
      ELoop g grays s v (ens.foldl (sconBody g fuel v) t) ∧
      EStep g v t (ens.foldl (sconBody g fuel v) t) ∧
      ∀ en ∈ ens, EPost g v (ens.foldl (sconBody g fuel v) t)
        ((g.edges.getD en default).to_node) := by
  intro ens
  induction ens with
  | nil =>
      intro t hel hens
      refine ⟨hel, EStep.refl g v t, ?_⟩
      intro en hen
      cases hen
  | cons en ens' ih =>
      intro t hel hens
      obtain ⟨hlen, hfrom⟩ := hens en (by simp)
      have hsucc : (g.edges.getD en default).to_node ∈ succs g v :=
        (mem_succs_iff hWF).mpr ⟨en, hlen, hfrom, rfl⟩
      have hon : (g.edges.getD en default).to_node < g.nodes.length :=
        succs_lt hWF hsucc
      rw [List.foldl_cons]
      by_cases hunvis :
          t.indexes.getD ((g.edges.getD en default).to_node) (-1) = -1
      · have hnvo : ¬TVisited t ((g.edges.getD en default).to_node) := by
          unfold TVisited idxA
          exact fun hc => hc hunvis
        have hhedge : v :: grays = [] ∨ ∃ gk gr, v :: grays = gk :: gr ∧
            (g.edges.getD en default).to_node ∈ succs g gk :=
          Or.inr ⟨v, grays, rfl, hsucc⟩
        have hfc : unvisitedCount g t < fuel :=
          lt_of_lt_of_le hel.uv_lt hfuel
        have p := IH (v :: grays) ((g.edges.getD en default).to_node) t
          hel.inv hon hnvo hhedge hfc
        obtain ⟨hel1, hstep1, hpost1⟩ := eloop_rec hel hnsv hsucc hnvo p _
          rfl
        rw [sconBody_eq_unvis g fuel v en t hunvis]
        obtain ⟨hel2, hstep2, hpost2⟩ := ih _ hel1
          (fun e he => hens e (by simp [he]))
        refine ⟨hel2, EStep.trans hstep1 hstep2, ?_⟩
        intro e he
        rcases List.mem_cons.mp he with he | he
        · subst he
          exact epost_mono hpost1 hstep2
        · exact hpost2 e he
      · by_cases hosb :
            t.on_stack.getD ((g.edges.getD en default).to_node) false = true
        · obtain ⟨hel1, hstep1, hpost1⟩ := eloop_back hel hnsv hsucc hosb _
            rfl
          rw [sconBody_eq_back g fuel v en t hunvis hosb]
          obtain ⟨hel2, hstep2, hpost2⟩ := ih _ hel1
            (fun e he => hens e (by simp [he]))
          refine ⟨hel2, EStep.trans hstep1 hstep2, ?_⟩
          intro e he
          rcases List.mem_cons.mp he with he | he
          · subst he
            exact epost_mono hpost1 hstep2
          · exact hpost2 e he
        · have hvis : TVisited t ((g.edges.getD en default).to_node) := by
            unfold TVisited idxA
            exact hunvis
          have hosf : osA t ((g.edges.getD en default).to_node) = false := by
            unfold osA
            simpa using hosb
          have hpost1 := eloop_cross hel hon hvis hosf
          rw [sconBody_eq_skip g fuel v en t hunvis hosb]
          obtain ⟨hel2, hstep2, hpost2⟩ := ih _ hel
            (fun e he => hens e (by simp [he]))
          refine ⟨hel2, hstep2, ?_⟩
          intro e he
          rcases List.mem_cons.mp he with he | he
          · subst he
            exact epost_mono hpost1 hstep2
          · exact hpost2 e he

/-- Reachability out of an assigned node stays assigned, via the
closure field of the invariant. -/
theorem reach_pred_closedP {succ : Nat → List Nat} (P : Nat → Prop)
    (hP : ∀ z, P z → ∀ w ∈ succ z, P w) :
    ∀ {x y : Nat}, P x → Reach succ [x] y → P y := reach_pred_closed hP

/-- Anything reachable from an assigned node is assigned. -/
theorem assigned_reach {g : Graph} {grays : List Nat} {t : TState}
    (hWF : EdgesOk g) (ht : TInv g grays t) {j i : Nat}
    (hj : j < g.nodes.length) (ha : TAssigned t j)
    (hr : Reach (succs g) [j] i) : TAssigned t i := by
  have h := reach_pred_closedP
    (fun z => z < g.nodes.length ∧ TAssigned t z)
    (fun z hz w hw =>
      ⟨succs_lt hWF hw, ht.assigned_closed z hz.1 hz.2 w hw⟩)
    ⟨hj, ha⟩ hr
  exact h.2

/-- Completion of `scon` in the non-root case: the active node stays on
the stack and the gray set loses its head. -/
theorem scon_nopop_post {g : Graph} {grays : List Nat} {s : TState}
    {v : Nat} (hs : TInv g grays s) {t2 : TState}
    (hel : ELoop g grays s v t2)
    (hposts : ∀ w ∈ succs g v, EPost g v t2 w)
    (hnp : llA t2 v ≠ idxA t2 v) : SconPost g grays s v t2 := by
  have hlt : llA t2 v < idxA t2 v := lt_of_le_of_ne hel.ll_ub hnp
  obtain ⟨y₀, hy₀s, hy₀idx, hy₀r⟩ := hel.llwit hlt
  have hy₀lt : idxA t2 y₀ < (s.index : Int) := by
    rw [hy₀idx, ← hel.idx_v]
    exact hlt
  obtain ⟨add, hadd, haddp⟩ := hel.stack_add
  have hy₀ss : y₀ ∈ s.stack := by
    have hin : y₀ ∈ add ++ s.stack := by
      rw [← hadd]
      exact hy₀s
    rcases List.mem_append.mp hin with h | h
    · exfalso
      have := (haddp y₀ h).1
      omega
    · exact h
  have hy₀vis : TVisited s y₀ := hs.stack_visited y₀ hy₀ss
  have hgwit : ∃ y₁ ∈ grays, y₁ ∈ t2.stack ∧
      idxA t2 y₁ < (s.index : Int) ∧ Reach (succs g) [v] y₁ := by
    by_cases hy₀g : y₀ ∈ grays
    · exact ⟨y₀, hy₀g, hy₀s, hy₀lt, hy₀r⟩
    · obtain ⟨y₁, hy₁g, hy₁le, hy₁r⟩ := hs.black_wit y₀ hy₀ss hy₀g
      have hy₁ss : y₁ ∈ s.stack := hs.grays_stack y₁ hy₁g
      refine ⟨y₁, hy₁g, ?_, ?_, reach_trans hy₀r hy₁r⟩
      · rw [hadd]
        exact List.mem_append_right _ hy₁ss
      · rw [hel.frame_idx y₁ (hs.stack_visited y₁ hy₁ss)]
        have h2 : idxA t2 y₀ = idxA s y₀ := hel.frame_idx y₀ hy₀vis
        omega
  refine
    { inv := ?hInv
      idx_v := hel.idx_v
      frame_idx := hel.frame_idx
      frame_ll := hel.frame_ll
      frame_scc := hel.frame_scc
      assigned_mono := hel.assigned_mono
      stack_add := hel.stack_add
      new_reach := hel.new_reach
      index_mono := hel.index_mono
      sccidx_mono := hel.sccidx_mono
      ll_ub := hel.ll_ub
      llwit := hel.llwit
      escape := ?hEsc
      pop_case := Or.inr hel.v_stack
      uv_lt := hel.uv_lt }
  case hInv =>
    refine
      { ilen := hel.inv.ilen
        llen := hel.inv.llen
        olen := hel.inv.olen
        slen := hel.inv.slen
        stack_lt := hel.inv.stack_lt
        idx_range := hel.inv.idx_range
        unvis_scc := hel.inv.unvis_scc
        unvis_os := hel.inv.unvis_os
        os_stack := hel.inv.os_stack
        stack_sorted := hel.inv.stack_sorted
        stack_visited := hel.inv.stack_visited
        stack_unassigned := hel.inv.stack_unassigned
        vis_stack_or_assigned := hel.inv.vis_stack_or_assigned
        grays_stack := fun y hy =>
          hel.inv.grays_stack y (List.mem_cons_of_mem v hy)
        grays_sorted := List.Pairwise.of_cons hel.inv.grays_sorted
        gray_reach_up := fun x hx y hy hle =>
          hel.inv.gray_reach_up x hx y (List.mem_cons_of_mem v hy) hle
        black_wit := ?hbw
        completed_succ := ?hcs
        assigned_closed := hel.inv.assigned_closed
        assigned_iff := hel.inv.assigned_iff
        scc_lt := hel.inv.scc_lt }
    case hbw =>
      intro x hx hxg
      by_cases hxv : x = v
      · subst hxv
        obtain ⟨y₁, hy₁g, hy₁s, hy₁lt, hy₁r⟩ := hgwit
        refine ⟨y₁, hy₁g, ?_, hy₁r⟩
        have hiv := hel.idx_v
        omega
      · obtain ⟨y, hy, hyle, hyr⟩ := hel.inv.black_wit x hx (by
          intro h
          rcases List.mem_cons.mp h with h | h
          · exact hxv h
          · exact hxg h)
        rcases List.mem_cons.mp hy with rfl | hyg
        · obtain ⟨y₁, hy₁g, hy₁s, hy₁lt, hy₁r⟩ := hgwit
          refine ⟨y₁, hy₁g, ?_, reach_trans hyr hy₁r⟩
          have hiv := hel.idx_v
          omega
        · exact ⟨y, hyg, hyle, hyr⟩
    case hcs =>
      intro x hxn hvx hxg w hw
      by_cases hxv : x = v
      · subst hxv
        exact (hposts w hw).1
      · exact hel.inv.completed_succ x hxn hvx (by
          intro h
          rcases List.mem_cons.mp h with h | h
          · exact hxv h
          · exact hxg h) w hw
  case hEsc =>
    intro z hz hvz hzs w hw
    by_cases hzv : z = v
    · subst hzv
      exact hposts w hw
    · exact hel.escape_sub z hz hvz hzs hzv w hw

/-- Completion of `scon` in the root case: the nodes popped with the
active node form exactly its strongly connected component. -/
theorem scon_pop_post {g : Graph} {grays : List Nat} {s : TState} {v : Nat}
    (hWF : EdgesOk g) (hs : TInv g grays s) (hnsv : ¬TVisited s v)
    {t2 : TState} (hel : ELoop g grays s v t2)
    (hposts : ∀ w ∈ succs g v, EPost g v t2 w)
    (hpop : llA t2 v = idxA t2 v) (t3 : TState)
    (ht3 : t3 = { t2 with
      stack := (popScc v t2.scc_index t2.stack t2.on_stack t2.scc).1
      on_stack := (popScc v t2.scc_index t2.stack t2.on_stack t2.scc).2.1
      scc := (popScc v t2.scc_index t2.stack t2.on_stack t2.scc).2.2
      scc_index := t2.scc_index + 1 }) :
    SconPost g grays s v t3 := by
  have hvn : v < g.nodes.length := hel.inv.stack_lt v hel.v_stack
  have hidxv : idxA t2 v = (s.index : Int) := hel.idx_v
  obtain ⟨front, rest, hfr⟩ := List.append_of_mem hel.v_stack
  obtain ⟨add, hadd, haddp⟩ := hel.stack_add
  have hsorted : (front ++ v :: rest).Pairwise
      (fun a b => idxA t2 b < idxA t2 a) := by
    rw [← hfr]
    exact hel.inv.stack_sorted
  have hps := List.pairwise_append.mp hsorted
  have hvfront : v ∉ front := by
    intro hv
    exact lt_irrefl _ (hps.2.2 v hv v (by simp))
  have hsvis_lt : ∀ i, TVisited s i → idxA t2 i < (s.index : Int) := by
    intro i hi
    rw [hel.frame_idx i hi]
    exact (hs.idx_range i hi).2
  have heq : (front ++ [v]) ++ rest = add ++ s.stack := by
    rw [List.append_assoc]
    show front ++ ([v] ++ rest) = _
    rw [List.singleton_append, ← hfr, hadd]
  have hPfront : ∀ x ∈ front ++ [v], (s.index : Int) ≤ idxA t2 x := by
    intro x hx
    rcases List.mem_append.mp hx with hx | hx
    · have h1 := hps.2.2 x hx v (by simp)
      omega
    · rw [List.mem_singleton] at hx
      subst hx
      exact le_of_eq hidxv.symm
  have hnPrest : ∀ x ∈ rest, ¬((s.index : Int) ≤ idxA t2 x) := by
    intro x hx
    have h1 := List.rel_of_pairwise_cons hps.2.1 hx
    omega
  have hPadd : ∀ x ∈ add, (s.index : Int) ≤ idxA t2 x :=
    fun x hx => (haddp x hx).1
  have hnPs : ∀ x ∈ s.stack, ¬((s.index : Int) ≤ idxA t2 x) := by
    intro x hx
    have h1 := hsvis_lt x (hs.stack_visited x hx)
    omega
  obtain ⟨hBadd, hrest⟩ := partition_eq heq hPfront hnPrest hPadd hnPs
  have hBstack : ∀ x ∈ front ++ [v], x ∈ t2.stack := by
    intro x hx
    rw [hfr]
    rcases List.mem_append.mp hx with hx | hx
    · exact List.mem_append_left _ hx
    · rw [List.mem_singleton] at hx
      subst hx
      exact List.mem_append_right _ (List.mem_cons_self _ _)
  have hBnew : ∀ x ∈ front ++ [v], ¬TVisited s x := by
    intro x hx
    have hxa : x ∈ add := by
      rw [← hBadd]
      exact hx
    exact (haddp x hxa).2
  have hBvis : ∀ x ∈ front ++ [v], TVisited t2 x :=
    fun x hx => hel.inv.stack_visited x (hBstack x hx)
  have hBn : ∀ x ∈ front ++ [v], x < g.nodes.length :=
    fun x hx => hel.inv.stack_lt x (hBstack x hx)
  have hBunass : ∀ x ∈ front ++ [v], ¬TAssigned t2 x :=
    fun x hx => hel.inv.stack_unassigned x (hBstack x hx)
  have hrest_svis : ∀ x ∈ rest, TVisited s x := by
    intro x hx
    rw [hrest] at hx
    exact hs.stack_visited x hx
  have hrest_notB : ∀ x ∈ rest, x ∉ front ++ [v] :=
    fun x hx hxB => hBnew x hxB (hrest_svis x hx)
  have hrest_t2 : ∀ x ∈ rest, x ∈ t2.stack := by
    intro x hx
    rw [hfr]
    exact List.mem_append_right _ (List.mem_cons_of_mem v hx)
  have hesc : ∀ z ∈ front ++ [v], ∀ w ∈ succs g z,
      TVisited t2 w ∧ (TAssigned t2 w ∨ llA t2 v ≤ idxA t2 w) := by
    intro z hz w hw
    rcases List.mem_append.mp hz with hzf | hzv
    · have hzne : z ≠ v := fun h => hvfront (h ▸ hzf)
      exact hel.escape_sub z (hBnew z hz) (hBvis z hz) (hBstack z hz) hzne
        w hw
    · rw [List.mem_singleton] at hzv
      subst hzv
      exact hposts w hw
  have hregion : ∀ z,
      (z < g.nodes.length ∧ (z ∈ front ++ [v] ∨ TAssigned t2 z)) →
      ∀ w ∈ succs g z,
      (w < g.nodes.length ∧ (w ∈ front ++ [v] ∨ TAssigned t2 w)) := by
    rintro z ⟨hzn, hz⟩ w hw
    refine ⟨succs_lt hWF hw, ?_⟩
    rcases hz with hz | hz
    · obtain ⟨hvw, hd⟩ := hesc z hz w hw
      rcases hd with hd | hd
      · exact Or.inr hd
      · rw [hpop, hidxv] at hd
        have hwnew : ¬TVisited s w := by
          intro hsw
          have h1 := hsvis_lt w hsw
          omega
        rcases hel.inv.vis_stack_or_assigned w (succs_lt hWF hw) hvw
          with h | h
        · exact Or.inr h
        · left
          rw [hBadd]
          have hin : w ∈ add ++ s.stack := by
            rw [← hadd]
            exact h
          rcases List.mem_append.mp hin with h' | h'
          · exact h'
          · exact absurd (hs.stack_visited w h') hwnew
    · exact Or.inr (hel.inv.assigned_closed z hzn hz w hw)
  have hreach_vx : ∀ x ∈ front ++ [v], Reach (succs g) [v] x := by
    intro x hx
    refine hel.inv.gray_reach_up x (hBstack x hx) v (by simp) ?_
    rw [hidxv]
    exact hPfront x hx
  have hreach_xv : ∀ x ∈ front ++ [v], Reach (succs g) [x] v := by
    intro x hx
    rcases List.mem_append.mp hx with hxf | hxv
    · have hxne : x ≠ v := fun h => hvfront (h ▸ hxf)
      have hxng : x ∉ v :: grays := by
        intro h
        rcases List.mem_cons.mp h with h | h
        · exact hxne h
        · exact hBnew x hx (hs.stack_visited x (hs.grays_stack x h))
      obtain ⟨y, hy, hyle, hr⟩ := hel.inv.black_wit x (hBstack x hx) hxng
      rcases List.mem_cons.mp hy with rfl | hyg
      · exact hr
      · exfalso
        have hyP := reach_pred_closedP
          (fun z => z < g.nodes.length ∧
            (z ∈ front ++ [v] ∨ TAssigned t2 z))
          hregion ⟨hBn x hx, Or.inl hx⟩ hr
        rcases hyP.2 with h | h
        · exact hBnew y h (hs.stack_visited y (hs.grays_stack y hyg))
        · exact hel.inv.stack_unassigned y
            (hel.inv.grays_stack y (List.mem_cons_of_mem v hyg)) h
    · rw [List.mem_singleton] at hxv
      subst hxv
      exact reach_refl _ _
  have hBreach : ∀ i ∈ front ++ [v], ∀ j ∈ front ++ [v],
      Reach (succs g) [i] j :=
    fun i hi j hj => reach_trans (hreach_xv i hi) (hreach_vx j hj)
  have hfltB : ∀ x ∈ front, x < t2.on_stack.length ∧ x < t2.scc.length := by
    intro x hx
    have hxn : x < g.nodes.length := hBn x (List.mem_append_left _ hx)
    constructor
    · rw [hel.inv.olen]
      exact hxn
    · rw [hel.inv.slen]
      exact hxn
  have hvo : v < t2.on_stack.length := by
    rw [hel.inv.olen]
    exact hvn
  have hvs : v < t2.scc.length := by
    rw [hel.inv.slen]
    exact hvn
  obtain ⟨hspec1, hspec2, hspec3, hkeep, hpopped⟩ :=
    popScc_spec v t2.scc_index front rest t2.on_stack t2.scc hvfront hfltB
      hvo hvs
  have hstack3 : t3.stack = rest := by
    rw [ht3, hfr]
    exact hspec1
  have hos3 : t3.on_stack =
      (popScc v t2.scc_index (front ++ v :: rest) t2.on_stack t2.scc).2.1 := by
    rw [ht3, hfr]
  have hscc3 : t3.scc =
      (popScc v t2.scc_index (front ++ v :: rest) t2.on_stack t2.scc).2.2 := by
    rw [ht3, hfr]
  have hsi3 : t3.scc_index = t2.scc_index + 1 := by
    rw [ht3]
  have hllink3 : t3.low_link = t2.low_link := by
    rw [ht3]
  have hilen3 : t3.indexes = t2.indexes := by
    rw [ht3]
  have hindex3 : t3.index = t2.index := by
    rw [ht3]
  have hidx3 : ∀ i, idxA t3 i = idxA t2 i := by
    intro i
    unfold idxA
    rw [hilen3]
  have hll3 : ∀ i, llA t3 i = llA t2 i := by
    intro i
    unfold llA
    rw [hllink3]
  have hvis3 : ∀ i, TVisited t3 i ↔ TVisited t2 i := by
    intro i
    unfold TVisited
    rw [hidx3]
  have hBor : ∀ i, i ∈ front ++ [v] → i ∈ front ∨ i = v := by
    intro i hi
    rcases List.mem_append.mp hi with h | h
    · exact Or.inl h
    · exact Or.inr (by simpa using h)
  have hBor' : ∀ i, (i ∈ front ∨ i = v) → i ∈ front ++ [v] := by
    intro i hi
    rcases hi with h | h
    · exact List.mem_append_left _ h
    · subst h
      exact List.mem_append_right _ (List.mem_cons_self i [])
  have hsccB : ∀ i, i ∈ front ++ [v] →
      sccA t3 i = (t2.scc_index : Int) := by
    intro i hi
    show t3.scc.getD i (-1) = _
    rw [hscc3]
    exact (hpopped i (hBor i hi)).2
  have hsccK : ∀ i, i ∉ front ++ [v] → sccA t3 i = sccA t2 i := by
    intro i hi
    show t3.scc.getD i (-1) = t2.scc.getD i (-1)
    rw [hscc3]
    exact (hkeep i (fun h => hi (hBor' i (Or.inl h)))
      (fun h => hi (hBor' i (Or.inr h)))).2
  have hosB : ∀ i, i ∈ front ++ [v] → osA t3 i = false := by
    intro i hi
    show t3.on_stack.getD i false = _
    rw [hos3]
    exact (hpopped i (hBor i hi)).1
  have hosK : ∀ i, i ∉ front ++ [v] → osA t3 i = osA t2 i := by
    intro i hi
    show t3.on_stack.getD i false = t2.on_stack.getD i false
    rw [hos3]
    exact (hkeep i (fun h => hi (hBor' i (Or.inl h)))
      (fun h => hi (hBor' i (Or.inr h)))).1
  have hassB : ∀ i, i ∈ front ++ [v] → TAssigned t3 i := by
    intro i hi
    show sccA t3 i ≠ -1
    rw [hsccB i hi]
    exact natCast_ne_neg_one _
  have hassK : ∀ i, i ∉ front ++ [v] → (TAssigned t3 i ↔ TAssigned t2 i) := by
    intro i hi
    show sccA t3 i ≠ -1 ↔ sccA t2 i ≠ -1
    rw [hsccK i hi]
  have hassT2notB : ∀ i, TAssigned t2 i → i ∉ front ++ [v] :=
    fun i h hi => hBunass i hi h
  have hass_mono23 : ∀ i, TAssigned t2 i → TAssigned t3 i :=
    fun i h => (hassK i (hassT2notB i h)).mpr h
  have hvislt2 : ∀ i, TVisited t2 i → i < g.nodes.length := by
    intro i hvi
    by_contra hge
    apply hvi
    show t2.indexes.getD i (-1) = -1
    rw [List.getD_eq_getElem?_getD,
      List.getElem?_eq_none_iff.mpr (by rw [hel.inv.ilen]; omega)]
    rfl
  have hnewass : ∀ i, ¬TVisited s i → TVisited t3 i → TAssigned t3 i := by
    intro i hsi hvi
    have hvi2 : TVisited t2 i := (hvis3 i).mp hvi
    rcases hel.inv.vis_stack_or_assigned i (hvislt2 i hvi2) hvi2 with h | h
    · exact hass_mono23 i h
    · have hin2 : i ∈ add ++ s.stack := by
        rw [← hadd]
        exact h
      rcases List.mem_append.mp hin2 with h' | h'
      · refine hassB i ?_
        rw [hBadd]
        exact h'
      · exact absurd (hs.stack_visited i h') hsi
  refine
    { inv := ?hInv
      idx_v := ?hIdxv
      frame_idx := ?hFidx
      frame_ll := ?hFll
      frame_scc := ?hFscc
      assigned_mono := fun i hi => hass_mono23 i (hel.assigned_mono i hi)
      stack_add := ?hAdd
      new_reach := fun i hi hvi => hel.new_reach i hi ((hvis3 i).mp hvi)
      index_mono := ?hImono
      sccidx_mono := ?hSmono
      ll_ub := ?hUb
      llwit := ?hWit
      escape := ?hEsc
      pop_case := Or.inl ⟨by rw [hstack3, hrest], hnewass⟩
      uv_lt := ?hUv }
  case hIdxv =>
    rw [hidx3 v]
    exact hel.idx_v
  case hFidx =>
    intro i hi
    rw [hidx3 i]
    exact hel.frame_idx i hi
  case hFll =>
    intro i hi
    rw [hll3 i]
    exact hel.frame_ll i hi
  case hFscc =>
    intro i hi
    rw [hsccK i (hassT2notB i (hel.assigned_mono i hi))]
    exact hel.frame_scc i hi
  case hAdd =>
    refine ⟨[], ?_, ?_⟩
    · rw [List.nil_append, hstack3, hrest]
    · intro x hx
      cases hx
  case hImono =>
    rw [hindex3]
    exact hel.index_mono
  case hSmono =>
    rw [hsi3]
    have h1 := hel.sccidx_mono
    omega
  case hUb =>
    rw [hll3 v, hidx3 v]
    exact le_of_eq hpop
  case hWit =>
    intro h
    rw [hll3 v, hidx3 v, hpop] at h
    exact absurd h (lt_irrefl _)
  case hEsc =>
    intro z hz hvz hzs w hw
    exfalso
    rw [hstack3] at hzs
    exact hz (hrest_svis z hzs)
  case hUv =>
    have huv : unvisitedCount g t3 = unvisitedCount g t2 := by
      unfold unvisitedCount idxA
      rw [hilen3]
    rw [huv]
    exact hel.uv_lt
  case hInv =>
    refine
      { ilen := ?h1
        llen := ?h2
        olen := ?h3
        slen := ?h4
        stack_lt := ?h5
        idx_range := ?h6
        unvis_scc := ?h7
        unvis_os := ?h8
        os_stack := ?h9
        stack_sorted := ?h10
        stack_visited := ?h11
        stack_unassigned := ?h12
        vis_stack_or_assigned := ?h13
        grays_stack := ?h14
        grays_sorted := ?h15
        gray_reach_up := ?h16
        black_wit := ?h17
        completed_succ := ?h18
        assigned_closed := ?h19
        assigned_iff := ?h20
        scc_lt := ?h21 }
    case h1 =>
      rw [hilen3]
      exact hel.inv.ilen
    case h2 =>
      rw [hllink3]
      exact hel.inv.llen
    case h3 =>
      rw [hos3, hspec2]
      exact hel.inv.olen
    case h4 =>
      rw [hscc3, hspec3]
      exact hel.inv.slen
    case h5 =>
      intro x hx
      rw [hstack3] at hx
      exact hel.inv.stack_lt x (hrest_t2 x hx)
    case h6 =>
      intro i hi
      rw [hidx3 i, hindex3]
      exact hel.inv.idx_range i ((hvis3 i).mp hi)
    case h7 =>
      intro i hi
      have hi2 : ¬TVisited t2 i := fun h => hi ((hvis3 i).mpr h)
      have hiB : i ∉ front ++ [v] := fun h => hi2 (hBvis i h)
      intro ha
      exact hel.inv.unvis_scc i hi2 ((hassK i hiB).mp ha)
    case h8 =>
      intro i hi
      have hi2 : ¬TVisited t2 i := fun h => hi ((hvis3 i).mpr h)
      have hiB : i ∉ front ++ [v] := fun h => hi2 (hBvis i h)
      rw [hosK i hiB]
      exact hel.inv.unvis_os i hi2
    case h9 =>
      intro i
      rw [hstack3]
      by_cases hiB : i ∈ front ++ [v]
      · rw [hosB i hiB]
        constructor
        · intro h
          exact absurd h (by decide)
        · intro h
          exact absurd (hrest_svis i h) (fun hc => hBnew i hiB hc)
      · rw [hosK i hiB, hel.inv.os_stack i, hfr]
        constructor
        · intro h
          rcases List.mem_append.mp h with h | h
          · exact absurd (hBor' i (Or.inl h)) hiB
          · rcases List.mem_cons.mp h with h | h
            · exact absurd (hBor' i (Or.inr h)) hiB
            · exact h
        · intro h
          exact List.mem_append_right _ (List.mem_cons_of_mem v h)
    case h10 =>
      rw [hstack3]
      have h1 := List.Pairwise.of_cons hps.2.1
      exact h1.imp (fun hab => by rw [hidx3, hidx3]; exact hab)
    case h11 =>
      intro x hx
      rw [hstack3] at hx
      exact (hvis3 x).mpr (hel.inv.stack_visited x (hrest_t2 x hx))
    case h12 =>
      intro x hx
      rw [hstack3] at hx
      intro ha
      exact hel.inv.stack_unassigned x (hrest_t2 x hx)
        ((hassK x (hrest_notB x hx)).mp ha)
    case h13 =>
      intro i hin hvi
      have hvi2 := (hvis3 i).mp hvi
      rcases hel.inv.vis_stack_or_assigned i hin hvi2 with h | h
      · exact Or.inl (hass_mono23 i h)
      · rw [hfr] at h
        rcases List.mem_append.mp h with h | h
        · exact Or.inl (hassB i (hBor' i (Or.inl h)))
        · rcases List.mem_cons.mp h with h | h
          · exact Or.inl (hassB i (hBor' i (Or.inr h)))
          · refine Or.inr ?_
            rw [hstack3]
            exact h
    case h14 =>
      intro y hy
      rw [hstack3, hrest]
      exact hs.grays_stack y hy
    case h15 =>
      have h1 := List.Pairwise.of_cons hel.inv.grays_sorted
      exact h1.imp (fun hab => by rw [hidx3, hidx3]; exact hab)
    case h16 =>
      intro x hx y hy hle
      rw [hstack3] at hx
      rw [hidx3, hidx3] at hle
      exact hel.inv.gray_reach_up x (hrest_t2 x hx) y
        (List.mem_cons_of_mem v hy) hle
    case h17 =>
      intro x hx hxg
      rw [hstack3] at hx
      have hxv : x ≠ v := by
        intro h
        exact hnsv (h ▸ hrest_svis x hx)
      obtain ⟨y, hy, hyle, hyr⟩ := hel.inv.black_wit x (hrest_t2 x hx) (by
        intro h
        rcases List.mem_cons.mp h with h | h
        · exact hxv h
        · exact hxg h)
      rcases List.mem_cons.mp hy with rfl | hyg
      · exfalso
        have h1 := hnPrest x hx
        rw [hidxv] at hyle
        exact h1 hyle
      · refine ⟨y, hyg, ?_, hyr⟩
        rw [hidx3, hidx3]
        exact hyle
    case h18 =>
      intro x hxn hvx hxg w hw
      by_cases hxv : x = v
      · subst hxv
        exact (hvis3 w).mpr (hposts w hw).1
      · refine (hvis3 w).mpr ?_
        exact hel.inv.completed_succ x hxn ((hvis3 x).mp hvx) (by
          intro h
          rcases List.mem_cons.mp h with h | h
          · exact hxv h
          · exact hxg h) w hw
    case h19 =>
      intro x hxn hax w hw
      by_cases hxB : x ∈ front ++ [v]
      · have hreg := hregion x ⟨hxn, Or.inl hxB⟩ w hw
        rcases hreg.2 with h | h
        · exact hassB w h
        · exact hass_mono23 w h
      · have hax2 : TAssigned t2 x := (hassK x hxB).mp hax
        exact hass_mono23 w (hel.inv.assigned_closed x hxn hax2 w hw)
    case h20 =>
      intro i j hin hjn hai haj
      by_cases hiB : i ∈ front ++ [v]
      · by_cases hjB : j ∈ front ++ [v]
        · constructor
          · intro hq
            exact ⟨hBreach i hiB j hjB, hBreach j hjB i hiB⟩
          · intro hq
            rw [hsccB i hiB, hsccB j hjB]
        · have haj2 : TAssigned t2 j := (hassK j hjB).mp haj
          constructor
          · intro heq2
            exfalso
            rw [hsccB i hiB, hsccK j hjB] at heq2
            have h1 := (hel.inv.scc_lt j haj2).2
            omega
          · rintro ⟨hij, hji⟩
            exact absurd (assigned_reach hWF hel.inv hjn haj2 hji)
              (hBunass i hiB)
      · have hai2 : TAssigned t2 i := (hassK i hiB).mp hai
        by_cases hjB : j ∈ front ++ [v]
        · constructor
          · intro heq2
            exfalso
            rw [hsccK i hiB, hsccB j hjB] at heq2
            have h1 := (hel.inv.scc_lt i hai2).2
            omega
          · rintro ⟨hij, hji⟩
            exact absurd (assigned_reach hWF hel.inv hin hai2 hij)
              (hBunass j hjB)
        · have haj2 : TAssigned t2 j := (hassK j hjB).mp haj
          rw [hsccK i hiB, hsccK j hjB]
          exact hel.inv.assigned_iff i j hin hjn hai2 haj2
    case h21 =>
      intro i hai
      by_cases hiB : i ∈ front ++ [v]
      · rw [hsccB i hiB, hsi3]
        constructor
        · omega
        · push_cast
          omega
      · have hai2 : TAssigned t2 i := (hassK i hiB).mp hai
        rw [hsccK i hiB, hsi3]
        have h1 := hel.inv.scc_lt i hai2
        constructor
        · exact h1.1
        · have h2 := h1.2
          push_cast
          push_cast at h2
          omega

/-- Beta-reduced unfolding of `scon` at positive fuel. -/
theorem scon_unfold2 (g : Graph) (fuel v : Nat) (s t2 : TState)
    (ht2 : t2 = (g.out_edges.getD v []).foldl (sconBody g fuel v)
      (sconMark v s)) :
    scon g (fuel + 1) v s =
      if t2.low_link.getD v (-1) = t2.indexes.getD v (-1) then
        { t2 with
          stack := (popScc v t2.scc_index t2.stack t2.on_stack t2.scc).1
          on_stack := (popScc v t2.scc_index t2.stack t2.on_stack t2.scc).2.1
          scc := (popScc v t2.scc_index t2.stack t2.on_stack t2.scc).2.2
          scc_index := t2.scc_index + 1 }
      else t2 := by
  subst ht2
  rfl

/-- The inductive step of the `scon` correctness proof. -/
theorem scon_spec_succ {g : Graph} (hWF : EdgesOk g) {fuel : Nat}
    (IH : SconH g fuel) : SconH g (fuel + 1) := by
  intro grays v s hinv hvn hnv hedge hfc
  have hel0 := mark_eloop hinv hvn hnv hedge
  have hfuel : unvisitedCount g s ≤ fuel := by omega
  have hens : ∀ en ∈ g.out_edges.getD v [], en < g.edges.length ∧
      (g.edges.getD en default).from_node = v :=
    fun en hen => (mem_out_edges hvn en).mp hen
  obtain ⟨hel, hstep, hposts⟩ := efold_spec hWF IH hnv hfuel
    (g.out_edges.getD v []) (sconMark v s) hel0 hens
  have hposts2 : ∀ w ∈ succs g v, EPost g v
      ((g.out_edges.getD v []).foldl (sconBody g fuel v) (sconMark v s))
      w := by
    intro w hw
    rcases (mem_succs_iff hWF).mp hw with ⟨en, hlen, hfrom, hto⟩
    have hmem : en ∈ g.out_edges.getD v [] :=
      (mem_out_edges hvn en).mpr ⟨hlen, hfrom⟩
    have h1 := hposts en hmem
    rw [hto] at h1
    exact h1
  rw [scon_unfold2 g fuel v s _ rfl]
  by_cases hcond : ((g.out_edges.getD v []).foldl (sconBody g fuel v)
      (sconMark v s)).low_link.getD v (-1) =
      ((g.out_edges.getD v []).foldl (sconBody g fuel v)
      (sconMark v s)).indexes.getD v (-1)
  · rw [if_pos hcond]
    exact scon_pop_post hWF hinv hnv hel hposts2 hcond _ rfl
  · rw [if_neg hcond]
    exact scon_nopop_post hinv hel hposts2 hcond

/-- Every `scon` call with enough fuel satisfies its postcondition. -/
theorem scon_spec {g : Graph} (hWF : EdgesOk g) : ∀ fuel, SconH g fuel := by
  intro fuel
  induction fuel with
  | zero =>
      intro grays v s hinv hvn hnv hedge hfc
      exact absurd hfc (by omega)
  | succ f ih => exact scon_spec_succ hWF ih

/-- `Graph.tarjan` in terms of the named pieces. -/
theorem tarjan_eq (g : Graph) :
    g.tarjan = ((List.range g.nodes.length).foldl
      (tarjanLoopBody g g.nodes.length)
      (tarjanInit g.nodes.length)).scc := rfl

/-- Lookup in a replicated list always yields the replicated value. -/
theorem getD_replicate {α : Type} (n i : Nat) (a : α) :
    (List.replicate n a).getD i a = a := by
  rw [List.getD_eq_getElem?_getD]
  rcases Nat.lt_or_ge i n with h | h
  · rw [List.getElem?_eq_getElem (by simpa using h)]
    simp
  · rw [List.getElem?_eq_none_iff.mpr (by simpa using h)]
    rfl

/-- The Tarjan invariant holds in the initial state. -/
theorem tarjanInit_inv (g : Graph) :
    TInv g [] (tarjanInit g.nodes.length) := by
  have hidx : ∀ i, idxA (tarjanInit g.nodes.length) i = -1 :=
    fun i => getD_replicate _ _ _
  have hscc : ∀ i, sccA (tarjanInit g.nodes.length) i = -1 :=
    fun i => getD_replicate _ _ _
  have hosf : ∀ i, osA (tarjanInit g.nodes.length) i = false :=
    fun i => getD_replicate _ _ _
  have hnvis : ∀ i, ¬TVisited (tarjanInit g.nodes.length) i :=
    fun i h => h (hidx i)
  have hnass : ∀ i, ¬TAssigned (tarjanInit g.nodes.length) i :=
    fun i h => h (hscc i)
  exact
    { ilen := by simp [tarjanInit]
      llen := by simp [tarjanInit]
      olen := by simp [tarjanInit]
      slen := by simp [tarjanInit]
      stack_lt := fun x hx => absurd hx (List.not_mem_nil x)
      idx_range := fun i hi => absurd hi (hnvis i)
      unvis_scc := fun i _ => hnass i
      unvis_os := fun i _ => hosf i
      os_stack := fun i => by
        rw [hosf i]
        simp [tarjanInit]
      stack_sorted := List.Pairwise.nil
      stack_visited := fun x hx => absurd hx (List.not_mem_nil x)
      stack_unassigned := fun x hx => absurd hx (List.not_mem_nil x)
      vis_stack_or_assigned := fun i _ hv => absurd hv (hnvis i)
      grays_stack := fun y hy => absurd hy (List.not_mem_nil y)
      grays_sorted := List.Pairwise.nil
      gray_reach_up := fun x hx => absurd hx (List.not_mem_nil x)
      black_wit := fun x hx => absurd hx (List.not_mem_nil x)
      completed_succ := fun x _ hv => absurd hv (hnvis x)
      assigned_closed := fun x _ ha => absurd ha (hnass x)
      assigned_iff := fun i j _ _ hai => absurd hai (hnass i)
      scc_lt := fun i hai => absurd hai (hnass i) }

/-- With no active recursion the stack is empty. -/
theorem tinv_nil_stack {g : Graph} {s : TState} (h : TInv g [] s) :
    s.stack = [] := by
  cases hs : s.stack with
  | nil => rfl
  | cons x rest =>
      exfalso
      have hx : x ∈ s.stack := by
        rw [hs]
        exact List.mem_cons_self _ _
      obtain ⟨y, hy, -⟩ := h.black_wit x hx (List.not_mem_nil x)
      exact absurd hy (List.not_mem_nil y)

/-- The Tarjan main loop preserves the invariant and visits every node
it processes. -/
theorem tarjan_loop_inv {g : Graph} (hWF : EdgesOk g) :
    ∀ (l : List Nat) (s : TState), TInv g [] s →
      (∀ x ∈ l, x < g.nodes.length) →
      TInv g [] (l.foldl (tarjanLoopBody g g.nodes.length) s) ∧
      (∀ i, TVisited s i →
        TVisited (l.foldl (tarjanLoopBody g g.nodes.length) s) i) ∧
      (∀ i ∈ l, TVisited (l.foldl (tarjanLoopBody g g.nodes.length) s) i) := by
  intro l
  induction l with
  | nil =>
      intro s hinv hl
      exact ⟨hinv, fun i h => h, fun i hi => absurd hi (List.not_mem_nil i)⟩
  | cons x l' ih =>
      intro s hinv hl
      rw [List.foldl_cons]
      by_cases hvx : s.indexes.getD x (-1) = -1
      · have hnv : ¬TVisited s x := fun h => h hvx
        have hxn : x < g.nodes.length := hl x (List.mem_cons_self _ _)
        have hfc : unvisitedCount g s < g.nodes.length + 1 := by
          have h1 := List.length_filter_le
            (fun i => decide (idxA s i = -1)) (List.range g.nodes.length)
          unfold unvisitedCount
          simp only [List.length_range] at h1
          omega
        have p := scon_spec hWF (g.nodes.length + 1) [] x s hinv hxn hnv
          (Or.inl rfl) hfc
        have hbody : tarjanLoopBody g g.nodes.length s x =
            scon g (g.nodes.length + 1) x s := by
          unfold tarjanLoopBody
          rw [if_pos hvx]
        rw [hbody]
        have hvx2 : TVisited (scon g (g.nodes.length + 1) x s) x := by
          unfold TVisited
          rw [p.idx_v]
          exact natCast_ne_neg_one _
        obtain ⟨hinv2, hmono, hall⟩ := ih (scon g (g.nodes.length + 1) x s)
          p.inv (fun y hy => hl y (List.mem_cons_of_mem x hy))
        refine ⟨hinv2, fun i h => hmono i (sconPost_vis_mono p i h), ?_⟩
        intro i hi
        rcases List.mem_cons.mp hi with rfl | hi
        · exact hmono i hvx2
        · exact hall i hi
      · have hvis : TVisited s x := hvx
        have hbody : tarjanLoopBody g g.nodes.length s x = s := by
          unfold tarjanLoopBody
          rw [if_neg hvx]
        rw [hbody]
        obtain ⟨hinv2, hmono, hall⟩ := ih s hinv
          (fun y hy => hl y (List.mem_cons_of_mem x hy))
        refine ⟨hinv2, hmono, ?_⟩
        intro i hi
        rcases List.mem_cons.mp hi with rfl | hi
        · exact hmono i hvis
        · exact hall i hi

/-- Tarjan correctness on any well-formed graph: the component array is
aligned, every node is assigned a component id, and two nodes share an
id exactly when each reaches the other. -/
theorem tarjan_correct {g : Graph} (hWF : EdgesOk g) :
    g.tarjan.length = g.nodes.length ∧
    (∀ i, i < g.nodes.length → g.tarjan.getD i (-1) ≠ -1) ∧
    (∀ i j, i < g.nodes.length → j < g.nodes.length →
      (g.tarjan.getD i (-1) = g.tarjan.getD j (-1) ↔
        Reach (succs g) [i] j ∧ Reach (succs g) [j] i)) := by
  obtain ⟨hinv, -, hall⟩ := tarjan_loop_inv hWF (List.range g.nodes.length)
    (tarjanInit g.nodes.length) (tarjanInit_inv g)
    (fun x hx => List.mem_range.mp hx)
  have hvisall : ∀ i, i < g.nodes.length →
      TVisited ((List.range g.nodes.length).foldl
        (tarjanLoopBody g g.nodes.length) (tarjanInit g.nodes.length)) i :=
    fun i hi => hall i (List.mem_range.mpr hi)
  have hstacknil := tinv_nil_stack hinv
  have hassall : ∀ i, i < g.nodes.length →
      TAssigned ((List.range g.nodes.length).foldl
        (tarjanLoopBody g g.nodes.length) (tarjanInit g.nodes.length)) i := by
    intro i hi
    rcases hinv.vis_stack_or_assigned i hi (hvisall i hi) with h | h
    · exact h
    · rw [hstacknil] at h
      exact absurd h (List.not_mem_nil i)
  refine ⟨?_, ?_, ?_⟩
  · rw [tarjan_eq]
    exact hinv.slen
  · intro i hi
    rw [tarjan_eq]
    exact hassall i hi
  · intro i j hi hj
    rw [tarjan_eq]
    exact hinv.assigned_iff i j hi hj (hassall i hi) (hassall j hj)

/-- C4: the strongly-connected-component computation assigns every node
of a constructed graph exactly one component id, and two nodes receive
the same component id if and only if each is reachable from the other
along graph edges. -/
theorem c4_tarjan_partition {objects : List Object}
    {transitions : List Transition} {g : Graph}
    (hg : Graph.create objects transitions = some g) :
    g.tarjan.length = g.nodes.length ∧
    (∀ i, i < g.nodes.length → g.tarjan.getD i (-1) ≠ -1) ∧
    (∀ i j, i < g.nodes.length → j < g.nodes.length →
      (g.tarjan.getD i (-1) = g.tarjan.getD j (-1) ↔
        Reach (succs g) [i] j ∧ Reach (succs g) [j] i)) :=
  tarjan_correct (create_edgesOk hg)

/-- Witness for C4 on the two-object natural cycle: every node gets a
component id, and nodes 0 and 1 (the two cycling objects) share one
exactly when mutually reachable. -/
theorem c4_tarjan_partition_witness :
    Graph.create natCycleObjects natCycleTransitions = some natCycleGraph ∧
    natCycleGraph.tarjan.length = natCycleGraph.nodes.length ∧
    natCycleGraph.tarjan.getD 0 (-1) ≠ -1 ∧
    (natCycleGraph.tarjan.getD 0 (-1) = natCycleGraph.tarjan.getD 1 (-1) ↔
      Reach (succs natCycleGraph) [0] 1 ∧
      Reach (succs natCycleGraph) [1] 0) := by
  have h := c4_tarjan_partition
    (show Graph.create natCycleObjects natCycleTransitions =
      some natCycleGraph by decide)
  exact ⟨by decide, h.1, h.2.1 0 (by decide), h.2.2 0 1 (by decide) (by decide)⟩

end Mamaty
